import Mathlib

/-!
# wiki-tui: document walker and link highlighter

A shallow embedding of `main.go`: the escape-sequence constants, `highlightLink`,
`parseTextFromNode`, `getText`, `parseHtml` and the selection part of `model.Update`,
followed by theorems about them.

Conventions of the embedding.

* A Go `string` that holds valid UTF-8 is represented by its sequence of runes
  (`Str = List Char`).  Ranging over such a string yields exactly these runes and
  `string(rune)` writes each one back, so a `bytes.Buffer` is a `Str` that grows by `++`.
* `html.Node` (package `golang.org/x/net/html`) is a pointer structure.  It is represented
  by a rose tree carrying the fields the program reads (`Type`, `DataAtom`, `Data`, `Attr`,
  the children); the `Parent` pointer of a node is passed next to the node, `none` being the
  nil pointer.  `Descendants()` is the depth-first pre-order list of the nodes strictly
  below a node, each paired with its parent.
* A nil-pointer dereference (a Go panic) is the value `none`.
* Go `int` is 64 bits wide: arithmetic on the selection register is wrapped by `wrapInt64`.
-/

namespace WikiTui

/-! ## Strings and the escape sequences (main.go, lines 18-22) -/

/-- A valid UTF-8 Go string, as the list of its runes. -/
abbrev Str := List Char

/-- Go `"\033[0m"`. -/
def Reset : Str := "\x1b[0m".toList
/-- Go `"\033[7m"`. -/
def Highlight : Str := "\x1b[7m".toList
/-- Go `"\033[31m"`. -/
def Red : Str := "\x1b[31m".toList
/-- Go `"\033[32m"`. -/
def Green : Str := "\x1b[32m".toList
/-- Go `"\n"`. -/
def Newline : Str := "\n".toList

/-- The escape character U+001B, with which all four colour sequences start. -/
def esc : Char := '\x1b'

/-! ## highlightLink (main.go, lines 62-80) -/

/-- The local `greenCompare = []rune(Green)`. -/
def greenCompare : Str := Green

/-- One iteration of the loop of `highlightLink`; the state is `(buffer, linkCount)`.
`linkCount` grows by at most one per rune of `content`, so it stays far below `2^63` and is
an unbounded integer here; `index` is any integer. -/
def highlightStep (index : Int) (st : Str × Int) (rune : Char) : Str × Int :=
  let char : Str := [rune]
  let st1 : Str × Int :=
    if rune = greenCompare.get ⟨0, by decide⟩ then
      ((if st.2 = index then st.1 ++ Highlight else st.1), st.2 + 1)
    else st
  (st1.1 ++ char, st1.2)

/-- The function `highlightLink(content, index)`. -/
def highlightLink (content : Str) (index : Int) : Str :=
  (content.foldl (highlightStep index) ([], 0)).1

/-! ## The document tree (package html, as far as main.go reads it) -/

/-- The type `html.NodeType`. -/
inductive NodeType
  | ErrorNode | TextNode | DocumentNode | ElementNode | CommentNode | DoctypeNode | RawNode
  deriving DecidableEq, Repr

/-- The type `atom.Atom`: zero (no known tag name), the three atoms the program tests,
and one value for every other known tag name. -/
inductive Atom
  | zero | A | H2 | P | other
  deriving DecidableEq, Repr

/-- The type `html.Attribute`. -/
structure Attribute where
  Namespace : String
  Key : String
  Val : String
  deriving DecidableEq, Repr

/-- The type `html.Node`: `Type`, `DataAtom`, `Data`, `Attr` and the list of children
(`FirstChild` and the `NextSibling` chain). -/
inductive Node where
  | mk (type : NodeType) (dataAtom : Atom) (data : Str) (attr : List Attribute)
      (children : List Node) : Node

namespace Node

/-- Field `Type`. -/
def type : Node → NodeType
  | mk t _ _ _ _ => t

/-- Field `DataAtom`. -/
def DataAtom : Node → Atom
  | mk _ a _ _ _ => a

/-- Field `Data`. -/
def Data : Node → Str
  | mk _ _ d _ _ => d

/-- Field `Attr`. -/
def Attr : Node → List Attribute
  | mk _ _ _ attrs _ => attrs

/-- The child nodes, first to last. -/
def children : Node → List Node
  | mk _ _ _ _ cs => cs

/-- Field `FirstChild`; `none` is the nil pointer. -/
def FirstChild (n : Node) : Option Node := n.children.head?

end Node

mutual
/-- The iterator `n.Descendants()`: the nodes strictly below `n` in depth-first pre-order,
each paired with its parent. -/
def Node.Descendants : Node → List (Node × Node)
  | .mk t a d attrs cs => descendantsOfChildren (.mk t a d attrs cs) cs
/-- The pre-order walk of a list of siblings whose parent is `parent`. -/
def descendantsOfChildren (parent : Node) : List Node → List (Node × Node)
  | [] => []
  | c :: cs => (parent, c) :: (c.Descendants ++ descendantsOfChildren parent cs)
end

/-! ## parseTextFromNode, getText, parseHtml (main.go, lines 178-233) -/

/-- The function `parseTextFromNode(n)`; `parent` is `n.Parent`.  The two pointer reads
`n.FirstChild.Data` and `n.Parent.DataAtom` fail on a nil pointer. -/
def parseTextFromNode (parent : Option Node) (n : Node) : Option Str :=
  if n.DataAtom = Atom.A then
    match n.FirstChild with
    | none => none
    | some c => some (Green ++ c.Data ++ Reset)
  else
    match parent with
    | none => none
    | some p =>
      if p.DataAtom = Atom.A then some []
      else if n.type = NodeType.TextNode then some n.Data
      else some []

/-- One iteration of the loop of `getText`: append the text of one descendant. -/
def getTextStep (buffer : Str) (pn : Node × Node) : Option Str :=
  (parseTextFromNode (some pn.1) pn.2).map (fun s => buffer ++ s)

/-- The function `getText(node)`; `parent` is `node.Parent`. -/
def getText (parent : Option Node) (node : Node) : Option Str :=
  (parseTextFromNode parent node).bind (fun s => node.Descendants.foldlM getTextStep s)

/-- The test `attr.Key == "class" && attr.Val == "mw-page-title-main"`. -/
def isTitleAttr (attr : Attribute) : Bool :=
  attr.Key == "class" && attr.Val == "mw-page-title-main"

/-- One iteration of the inner loop over `n.Attr`: a matching attribute assigns
`pageTitle = getText(*n)`. -/
def titleStep (pn : Node × Node) (pageTitle : Str) (attr : Attribute) : Option Str :=
  if isTitleAttr attr then getText (some pn.1) pn.2 else some pageTitle

/-- One iteration of the loop of `parseHtml` over `doc.Descendants()`; the state is
`(buffer, pageTitle)`, `pageTitle` being the package-level variable. -/
def parseHtmlStep (st : Str × Str) (pn : Node × Node) : Option (Str × Str) :=
  (pn.2.Attr.foldlM (titleStep pn) st.2).bind fun pageTitle =>
  (if pn.2.type = NodeType.ElementNode then
      if pn.2.DataAtom = Atom.H2 then
        (getText (some pn.1) pn.2).map (fun t => st.1 ++ (Red ++ t ++ Reset ++ Newline))
      else some st.1
    else some st.1).bind fun buffer1 =>
  (if pn.2.DataAtom = Atom.P then
      (getText (some pn.1) pn.2).map (fun t => buffer1 ++ (t ++ Newline))
    else some buffer1).bind fun buffer2 =>
  some (buffer2, pageTitle)

/-- The function `parseHtml`, from the tree `doc` that `html.Parse` returned on.  The
argument `pageTitle` is the value of the package-level variable on entry (the empty string
in `main`); the result is `(buffer.String(), pageTitle)`, or `none` when a node read
panics. -/
def parseHtml (doc : Node) (pageTitle : Str) : Option (Str × Str) :=
  doc.Descendants.foldlM parseHtmlStep ([], pageTitle)


/-! ## Notions used to state the properties -/

/-- The number of occurrences of `pat` in `text`: the positions of `text` at which `pat`
is a prefix of what follows. -/
def countOcc (pat : Str) : Str → Nat
  | [] => if pat.isPrefixOf [] then 1 else 0
  | c :: cs => (if pat.isPrefixOf (c :: cs) then 1 else 0) + countOcc pat cs

/-- The number of escape characters U+001B in `text`. -/
def countEsc (text : Str) : Nat := text.count esc

/-- The loop of `highlightLink` as a recursion on what is left of `content`, given the
value `linkCount` has reached; `foldl_highlightStep` proves it equal to the loop. -/
def highlightFrom (index : Int) : Int → Str → Str
  | _, [] => []
  | linkCount, r :: rest =>
    if r = esc then
      (if linkCount = index then Highlight else []) ++ r :: highlightFrom index (linkCount + 1) rest
    else r :: highlightFrom index linkCount rest

/-- An element node whose tag is the atom `a`. -/
def Node.isElement (a : Atom) (n : Node) : Prop :=
  n.type = NodeType.ElementNode ∧ n.DataAtom = a

instance (a : Atom) (n : Node) : Decidable (n.isElement a) := by
  unfold Node.isElement; infer_instance

/-- The invariant of package html on the nodes below `doc`: only an element node carries
a non-zero `DataAtom` (text, comment, doctype and document nodes have none). -/
def WellFormed (doc : Node) : Prop :=
  ∀ pn ∈ doc.Descendants, pn.2.DataAtom ≠ Atom.zero → pn.2.type = NodeType.ElementNode

/-- Every anchor element below `doc` has at least one child. -/
def AnchorsHaveChild (doc : Node) : Prop :=
  ∀ pn ∈ doc.Descendants, pn.2.isElement Atom.A → pn.2.FirstChild.isSome = true

/-- The text `parseTextFromNode` returns for a node below the root, the empty string
standing in for a failed read. -/
def nodeText (pn : Node × Node) : Str :=
  (parseTextFromNode (some pn.1) pn.2).getD []

/-- The text `getText` returns for a node below the root, the empty string standing in for
a failed read. -/
def getTextD (pn : Node × Node) : Str :=
  (getText (some pn.1) pn.2).getD []

/-- The node is one whose text the walker appends: an `h2` element or a `p` element. -/
def isBlock (pn : Node × Node) : Prop :=
  pn.2.isElement Atom.H2 ∨ pn.2.isElement Atom.P

instance (pn : Node × Node) : Decidable (isBlock pn) := by
  unfold isBlock; infer_instance

/-- The segment of a block node: `Red + getText + Reset + "\n"` for an
`h2` element, `getText + "\n"` for a `p` element. -/
def IsSegment (pn : Node × Node) (seg : Str) : Prop :=
  (pn.2.isElement Atom.H2 ∧ ∃ t, getText (some pn.1) pn.2 = some t ∧
      seg = Red ++ t ++ Reset ++ Newline) ∨
  (pn.2.isElement Atom.P ∧ ∃ t, getText (some pn.1) pn.2 = some t ∧ seg = t ++ Newline)

/-- What one iteration of the loop of `parseHtml` appends to the buffer when its reads
succeed. -/
def stepText (pn : Node × Node) : Str :=
  (if pn.2.type = NodeType.ElementNode ∧ pn.2.DataAtom = Atom.H2 then
      Red ++ getTextD pn ++ Reset ++ Newline else []) ++
  (if pn.2.DataAtom = Atom.P then getTextD pn ++ Newline else [])

/-- The node carries the attribute `class="mw-page-title-main"`. -/
def hasTitleAttr (pn : Node × Node) : Bool := pn.2.Attr.any isTitleAttr

/-- What one iteration of the loop of `parseHtml` leaves in `pageTitle` when its reads
succeed. -/
def stepTitle (pageTitle : Str) (pn : Node × Node) : Str :=
  if hasTitleAttr pn then getTextD pn else pageTitle

instance (doc : Node) : Decidable (WellFormed doc) := by
  unfold WellFormed; infer_instance

instance (doc : Node) : Decidable (AnchorsHaveChild doc) := by
  unfold AnchorsHaveChild; infer_instance

/-- The nodes below `doc` that carry `class="mw-page-title-main"`, in document order. -/
def titleNodes (doc : Node) : List (Node × Node) :=
  doc.Descendants.filter hasTitleAttr

/-- A text node as package html builds it: no atom and no children. -/
def IsTextLeaf (c : Node) : Prop :=
  c.type = NodeType.TextNode ∧ c.DataAtom = Atom.zero ∧ c.children.length = 0

instance (c : Node) : Decidable (IsTextLeaf c) := by
  unfold IsTextLeaf; infer_instance

/-- An anchor element that has exactly one child, a text node. -/
def IsSimpleAnchor (c : Node) : Prop :=
  c.isElement Atom.A ∧ c.children.length = 1 ∧ ∀ t ∈ c.children, IsTextLeaf t

instance (c : Node) : Decidable (IsSimpleAnchor c) := by
  unfold IsSimpleAnchor; infer_instance

/-- The contribution of a child of a paragraph: the literal text of a text node,
and `Green + anchor text + Reset` for an anchor, the anchor text being the text of its
children. -/
def childText (c : Node) : Str :=
  if c.type = NodeType.TextNode then c.Data
  else Green ++ (c.children.map Node.Data).flatten ++ Reset

/-! ## Concrete documents

Each is the tree `html.Parse` builds for the quoted source: a document node holding
`html`, which holds an empty `head` and the `body`. -/

/-- A text node. -/
def textNode (s : String) : Node :=
  Node.mk NodeType.TextNode Atom.zero s.toList [] []

/-- An element node. -/
def element (a : Atom) (tag : String) (attr : List Attribute) (cs : List Node) : Node :=
  Node.mk NodeType.ElementNode a tag.toList attr cs

/-- The `body` element with the given children. -/
def bodyOf (cs : List Node) : Node := element Atom.other "body" [] cs

/-- The parsed document whose body has the given children. -/
def documentOf (cs : List Node) : Node :=
  Node.mk NodeType.DocumentNode Atom.zero [] []
    [element Atom.other "html" [] [element Atom.other "head" [] [], bodyOf cs]]

/-- The paragraph `<p>Hello <a href="x">world</a>!</p>`. -/
def helloP : Node :=
  element Atom.P "p" []
    [textNode "Hello ", element Atom.A "a" [⟨"", "href", "x"⟩] [textNode "world"], textNode "!"]

/-- The document `<p>Hello <a href="x">world</a>!</p>`. -/
def helloDoc : Node := documentOf [helloP]

/-- The document `<p><a href="x">a</a><a href="y">b</a></p>`. -/
def twoLinksDoc : Node :=
  documentOf [element Atom.P "p" []
    [element Atom.A "a" [⟨"", "href", "x"⟩] [textNode "a"],
     element Atom.A "a" [⟨"", "href", "y"⟩] [textNode "b"]]]

/-- The text `parseHtml` returns on `twoLinksDoc`. -/
def twoLinksText : Str :=
  Green ++ "a".toList ++ Reset ++ Green ++ "b".toList ++ Reset ++ Newline

/-- The document `<p><a href="x">a</a></p>`. -/
def oneLinkDoc : Node :=
  documentOf [element Atom.P "p" [] [element Atom.A "a" [⟨"", "href", "x"⟩] [textNode "a"]]]

/-- The text `parseHtml` returns on `oneLinkDoc`. -/
def oneLinkText : Str := Green ++ "a".toList ++ Reset ++ Newline

/-- The document `<h2>Title</h2>`, which has no anchor. -/
def headingDoc : Node := documentOf [element Atom.H2 "h2" [] [textNode "Title"]]

/-- The text `parseHtml` returns on `headingDoc`. -/
def headingText : Str := Red ++ "Title".toList ++ Reset ++ Newline

/-- The document `<h2>Title</h2><p><a href="x">w</a></p>`. -/
def headingLinkDoc : Node :=
  documentOf [element Atom.H2 "h2" [] [textNode "Title"],
    element Atom.P "p" [] [element Atom.A "a" [⟨"", "href", "x"⟩] [textNode "w"]]]

/-- The text `parseHtml` returns on `headingLinkDoc`. -/
def headingLinkText : Str :=
  Red ++ "Title".toList ++ Reset ++ Newline ++ (Green ++ "w".toList ++ Reset ++ Newline)

/-- The document `<h2><p><a href="x">w</a></p></h2>`: one anchor, inside a paragraph that
is inside a heading. -/
def nestedDoc : Node :=
  documentOf [element Atom.H2 "h2" []
    [element Atom.P "p" [] [element Atom.A "a" [⟨"", "href", "x"⟩] [textNode "w"]]]]

/-- The first title node of `twoTitlesDoc`. -/
def firstTitle : Node :=
  element Atom.other "span" [⟨"", "class", "mw-page-title-main"⟩] [textNode "First"]

/-- The second title node of `twoTitlesDoc`. -/
def secondTitle : Node :=
  element Atom.other "span" [⟨"", "class", "mw-page-title-main"⟩] [textNode "Second"]

/-- The document
`<span class="mw-page-title-main">First</span><span class="mw-page-title-main">Second</span>`. -/
def twoTitlesDoc : Node := documentOf [firstTitle, secondTitle]

/-- The anchor `<a id="top"></a>`, which has no child. -/
def emptyAnchor : Node := element Atom.A "a" [⟨"", "id", "top"⟩] []

/-- The paragraph `<p><a id="top"></a></p>`. -/
def emptyAnchorP : Node := element Atom.P "p" [] [emptyAnchor]

/-- The document `<p><a id="top"></a></p>`. -/
def emptyAnchorDoc : Node := documentOf [emptyAnchorP]

/-- The document `<h2>One</h2><p>Text</p><h2>Two</h2>`. -/
def twoHeadingsDoc : Node :=
  documentOf [element Atom.H2 "h2" [] [textNode "One"], element Atom.P "p" [] [textNode "Text"],
    element Atom.H2 "h2" [] [textNode "Two"]]

/-- The text `parseHtml` returns on `nestedDoc`: the link is written twice. -/
def nestedText : Str :=
  Red ++ (Green ++ "w".toList ++ Reset) ++ Reset ++ Newline
    ++ (Green ++ "w".toList ++ Reset ++ Newline)

/-! ## Link markers in a text -/

/-- The link markers of `s` are followed, in order, by the texts `ls`: appending `s` in
front of any text adds `ls.length` occurrences of `Green`, and the occurrence of ordinal
`j` is followed by the `j`-th text of `ls` and then `Reset`. -/
def Links (s : Str) (ls : List Str) : Prop :=
  (∀ t, countOcc Green (s ++ t) = ls.length + countOcc Green t) ∧
  ∀ j l, ls[j]? = some l →
    ∃ pre post, s = pre ++ Green ++ l ++ Reset ++ post ∧ countOcc Green pre = j

/-- A text whose escape characters are those of complete links: every U+001B in it is the
first character of a `Green` marker, which is followed by visible text free of U+001B and
by `Reset`. -/
inductive LinkText : Str → Prop
  | nil : LinkText []
  | plain (c : Char) (t : Str) : c ≠ esc → LinkText t → LinkText (c :: t)
  | link (d t : Str) : esc ∉ d → LinkText t → LinkText (Green ++ d ++ Reset ++ t)

/-! ## Links of a document -/

/-- No text node below `doc` and no child of an anchor element has the escape character
in its `Data`: the strings `parseTextFromNode` copies into the text are free of it. -/
def EscFree (doc : Node) : Prop :=
  ∀ pn ∈ doc.Descendants,
    (pn.2.type = NodeType.TextNode ∨ pn.1.isElement Atom.A) → esc ∉ pn.2.Data

instance (doc : Node) : Decidable (EscFree doc) := by
  unfold EscFree; infer_instance

/-- No `p` or `h2` element below `doc` lies inside another `p` or `h2` element. -/
def NoNestedBlocks (doc : Node) : Prop :=
  ∀ pn ∈ doc.Descendants, isBlock pn → ∀ qm ∈ pn.2.Descendants, ¬ isBlock qm

instance (doc : Node) : Decidable (NoNestedBlocks doc) := by
  unfold NoNestedBlocks; infer_instance

/-- There is no anchor element below `doc`. -/
def NoAnchor (doc : Node) : Prop :=
  ∀ pn ∈ doc.Descendants, ¬ pn.2.isElement Atom.A

instance (doc : Node) : Decidable (NoAnchor doc) := by
  unfold NoAnchor; infer_instance

/-- The visible text `parseTextFromNode` gives a link: the `Data` of the anchor's first
child (empty when there is none). -/
def linkText (a : Node) : Str := (a.FirstChild.map Node.Data).getD []

/-- The link texts one call of `parseTextFromNode` emits. -/
def nodeLinks (pn : Node × Node) : List Str :=
  if pn.2.DataAtom = Atom.A then [linkText pn.2] else []

/-- The link texts one call of `getText` emits: those of the node and of its descendants,
in document order. -/
def subtreeLinks (pn : Node × Node) : List Str :=
  (pn :: pn.2.Descendants).flatMap nodeLinks

/-- The link texts `parseHtml` emits: for each `h2` or `p` element in document order,
those of its subtree. -/
def emittedLinks (doc : Node) : List Str :=
  doc.Descendants.flatMap (fun pn => if isBlock pn then subtreeLinks pn else [])

mutual
/-- The anchor elements of the subtree of a node that lie inside a `p` or `h2` element, in
document order; `inBlock` tells whether the node itself lies inside one. -/
def Node.anchorsInside (inBlock : Bool) : Node → List Node
  | .mk t a d attrs cs =>
    (if inBlock = true ∧ (Node.mk t a d attrs cs).isElement Atom.A
      then [Node.mk t a d attrs cs] else []) ++
    anchorsInsideList
      (inBlock || decide ((Node.mk t a d attrs cs).isElement Atom.H2 ∨
        (Node.mk t a d attrs cs).isElement Atom.P)) cs
/-- The same for a list of siblings. -/
def anchorsInsideList (inBlock : Bool) : List Node → List Node
  | [] => []
  | c :: cs => c.anchorsInside inBlock ++ anchorsInsideList inBlock cs
end

/-- The anchor elements of the document that lie inside a `p` or `h2` element, in document
order. -/
def anchorsInBlocks (doc : Node) : List Node :=
  anchorsInsideList false doc.children

/-- The link texts the loop of `parseHtml` emits over a list of nodes. -/
def emittedIn (l : List (Node × Node)) : List Str :=
  l.flatMap (fun pn => if isBlock pn then subtreeLinks pn else [])

/-! ## model.Update (main.go, lines 82-129) -/

/-- Go `int` arithmetic: the result of an operation, wrapped to 64 bits two's complement. -/
def wrapInt64 (x : Int) : Int := (x + 2 ^ 63) % 2 ^ 64 - 2 ^ 63

/-- The messages `Update` distinguishes: a key (given by `msg.String()`), a window size,
anything else. -/
inductive Msg
  | KeyMsg (key : String)
  | WindowSizeMsg (Width Height : Int)
  | other

/-- The collaborators of `Update` that are not part of the program: `wordwrap.String`, the
operations of `viewport.Model` (a value of type `V`) and the heights of the rendered header
and footer. -/
structure Shell (V : Type) where
  wordwrap : Str → Int → Str
  viewportNew : Int → Int → V
  setContent : V → Str → V
  setYPosition : V → Int → V
  setWidth : V → Int → V
  setHeight : V → Int → V
  viewportUpdate : V → Msg → V
  headerHeight : V → Int
  footerHeight : V → Int

/-- The struct `model`. -/
structure model (V : Type) where
  content : Str
  selected : Int
  pageTitle : Str
  ready : Bool
  mainContentWidth : Int
  viewport : V

/-- The method `Update`; the second component tells whether the command is `tea.Quit`. -/
def model.Update {V : Type} (sh : Shell V) (m : model V) (msg : Msg) : model V × Bool :=
  match msg with
  | Msg.KeyMsg k =>
    if k = "ctrl+c" ∨ k = "q" ∨ k = "esc" then (m, true)
    else
      let m1 : model V :=
        if k = "n" then
          let selected := wrapInt64 (m.selected + 2)
          let s := highlightLink (sh.wordwrap m.content m.mainContentWidth) selected
          model.mk m.content selected m.pageTitle m.ready m.mainContentWidth
            (sh.setContent m.viewport s)
        else m
      (model.mk m1.content m1.selected m1.pageTitle m1.ready m1.mainContentWidth
        (sh.viewportUpdate m1.viewport msg), false)
  | Msg.WindowSizeMsg Width Height =>
    let headerHeight := sh.headerHeight m.viewport
    let footerHeight := sh.footerHeight m.viewport
    let verticalMarginHeight := wrapInt64 (headerHeight + footerHeight)
    let m1 : model V :=
      if m.ready = false then
        let vp := sh.setYPosition
          (sh.viewportNew Width (wrapInt64 (Height - verticalMarginHeight))) headerHeight
        let mainContentWidth := wrapInt64 (Width - 2)
        let s := highlightLink (sh.wordwrap m.content mainContentWidth) m.selected
        model.mk m.content m.selected m.pageTitle true mainContentWidth (sh.setContent vp s)
      else
        model.mk m.content m.selected m.pageTitle m.ready m.mainContentWidth
          (sh.setHeight (sh.setWidth m.viewport Width)
            (wrapInt64 (Height - verticalMarginHeight)))
    (model.mk m1.content m1.selected m1.pageTitle m1.ready m1.mainContentWidth
      (sh.viewportUpdate m1.viewport msg), false)
  | Msg.other =>
    (model.mk m.content m.selected m.pageTitle m.ready m.mainContentWidth
      (sh.viewportUpdate m.viewport msg), false)

/-- The model `main` starts the program with; `vp` is the zero viewport. -/
def initialModel {V : Type} (content pageTitle : Str) (vp : V) : model V :=
  model.mk content 0 pageTitle false 0 vp

/-- The model after `Update` has handled the messages `msgs` in turn. -/
def runUpdates {V : Type} (sh : Shell V) (m : model V) (msgs : List Msg) : model V :=
  msgs.foldl (fun m msg => (m.Update sh msg).1) m

/-- The message is the key `n`. -/
def isNext : Msg → Bool
  | Msg.KeyMsg k => decide (k = "n")
  | _ => false

/-- The number of `n` key events among `msgs`. -/
def countNext (msgs : List Msg) : Nat := (msgs.filter isNext).length

/-- A shell for concrete runs: the viewport is its content, nothing is wrapped. -/
def plainShell : Shell Str where
  wordwrap := fun s _ => s
  viewportNew := fun _ _ => []
  setContent := fun _ s => s
  setYPosition := fun v _ => v
  setWidth := fun v _ => v
  setHeight := fun v _ => v
  viewportUpdate := fun v _ => v
  headerHeight := fun _ => 3
  footerHeight := fun _ => 3

/-! ## The loop of highlightLink -/

theorem greenCompare_zero : greenCompare.get ⟨0, by decide⟩ = esc := rfl

theorem Green_eq : Green = esc :: ['[', '3', '2', 'm'] := rfl
theorem Red_eq : Red = esc :: ['[', '3', '1', 'm'] := rfl
theorem Reset_eq : Reset = esc :: ['[', '0', 'm'] := rfl
theorem Highlight_eq : Highlight = esc :: ['[', '7', 'm'] := rfl

theorem countEsc_nil : countEsc [] = 0 := rfl

theorem countEsc_cons_esc (t : Str) : countEsc (esc :: t) = countEsc t + 1 := by
  simp [countEsc]

theorem countEsc_cons_ne {c : Char} (h : c ≠ esc) (t : Str) :
    countEsc (c :: t) = countEsc t := by
  simp [countEsc, List.count_cons, h]

theorem countEsc_append (s t : Str) : countEsc (s ++ t) = countEsc s + countEsc t := by
  simp [countEsc]

theorem highlightStep_eq (index : Int) (st : Str × Int) (rune : Char) :
    highlightStep index st rune =
      if rune = esc then ((if st.2 = index then st.1 ++ Highlight else st.1) ++ [rune], st.2 + 1)
      else (st.1 ++ [rune], st.2) := by
  unfold highlightStep
  rw [greenCompare_zero]
  by_cases h : rune = esc <;> simp [h]

theorem foldl_highlightStep (index : Int) (content : Str) :
    ∀ (buf : Str) (cnt : Int),
      content.foldl (highlightStep index) (buf, cnt)
        = (buf ++ highlightFrom index cnt content, cnt + countEsc content) := by
  induction content with
  | nil => intro buf cnt; simp [highlightFrom, countEsc_nil]
  | cons r rest ih =>
    intro buf cnt
    rw [List.foldl_cons, highlightStep_eq]
    by_cases hr : r = esc
    · subst hr
      by_cases hc : cnt = index
      · simp [hc, ih, highlightFrom, countEsc_cons_esc]
        omega
      · simp [hc, ih, highlightFrom, countEsc_cons_esc]
        omega
    · simp [hr, ih, highlightFrom, countEsc_cons_ne hr]

theorem highlightLink_eq_highlightFrom (content : Str) (index : Int) :
    highlightLink content index = highlightFrom index 0 content := by
  simp [highlightLink, foldl_highlightStep]

theorem highlightFrom_noop (index : Int) (content : Str) :
    ∀ cnt : Int, (index < cnt ∨ cnt + countEsc content ≤ index) →
      highlightFrom index cnt content = content := by
  induction content with
  | nil => intro cnt _; rfl
  | cons r rest ih =>
    intro cnt h
    by_cases hr : r = esc
    · subst hr
      rw [countEsc_cons_esc] at h
      have hne : cnt ≠ index := by omega
      have := ih (cnt + 1) (by push_cast at h; omega)
      simp [highlightFrom, hne, this]
    · rw [countEsc_cons_ne hr] at h
      simp [highlightFrom, hr, ih cnt h]

theorem highlightFrom_insert (index : Int) (content : Str) :
    ∀ cnt : Int, cnt ≤ index → index < cnt + countEsc content →
      ∃ pre post, content = pre ++ esc :: post ∧ cnt + countEsc pre = index ∧
        highlightFrom index cnt content = pre ++ Highlight ++ esc :: post := by
  induction content with
  | nil => intro cnt h1 h2; simp [countEsc_nil] at h2; omega
  | cons r rest ih =>
    intro cnt h1 h2
    by_cases hr : r = esc
    · subst hr
      by_cases hc : cnt = index
      · refine ⟨[], rest, rfl, by simp [countEsc_nil, hc], ?_⟩
        have := highlightFrom_noop index rest (cnt + 1) (Or.inl (by omega))
        subst hc
        simp [highlightFrom, this]
      · rw [countEsc_cons_esc] at h2
        obtain ⟨pre, post, e1, e2, e3⟩ := ih (cnt + 1) (by omega) (by push_cast at h2; omega)
        refine ⟨esc :: pre, post, by simp [e1], ?_, ?_⟩
        · rw [countEsc_cons_esc]; push_cast; omega
        · simp [highlightFrom, hc, e3]
    · rw [countEsc_cons_ne hr] at h2
      obtain ⟨pre, post, e1, e2, e3⟩ := ih cnt h1 h2
      refine ⟨r :: pre, post, by simp [e1], ?_, ?_⟩
      · rw [countEsc_cons_ne hr]; exact e2
      · simp [highlightFrom, hr, e3]


/-! ## Counting occurrences of an escape sequence -/

theorem isPrefixOf_esc_cons (q : Str) (c : Char) (t : Str) :
    (esc :: q).isPrefixOf (c :: t) = (decide (c = esc) && q.isPrefixOf t) := by
  by_cases h : c = esc
  · subst h; simp [List.isPrefixOf]
  · have h2 : ¬ esc = c := fun e => h e.symm
    simp [List.isPrefixOf, h, h2]

theorem countOcc_cons (pat : Str) (c : Char) (cs : Str) :
    countOcc pat (c :: cs) = (if pat.isPrefixOf (c :: cs) then 1 else 0) + countOcc pat cs := rfl

theorem countOcc_cons_ne (q : Str) {c : Char} (h : c ≠ esc) (t : Str) :
    countOcc (esc :: q) (c :: t) = countOcc (esc :: q) t := by
  simp [countOcc, isPrefixOf_esc_cons, h]

theorem countOcc_append_escFree (q : Str) (s t : Str) (hs : esc ∉ s) :
    countOcc (esc :: q) (s ++ t) = countOcc (esc :: q) t := by
  induction s with
  | nil => rfl
  | cons c s ih =>
    have hc : c ≠ esc := fun e => hs (by simp [e])
    have hs2 : esc ∉ s := fun e => hs (by simp [e])
    rw [List.cons_append, countOcc_cons_ne q hc, ih hs2]

theorem countOcc_le_countEsc (q : Str) (t : Str) : countOcc (esc :: q) t ≤ countEsc t := by
  induction t with
  | nil => simp [countOcc, List.isPrefixOf]
  | cons c t ih =>
    by_cases h : c = esc
    · subst h
      rw [countEsc_cons_esc]
      simp only [countOcc]
      split <;> omega
    · rw [countOcc_cons_ne q h, countEsc_cons_ne h]; exact ih

/-- Whether `q` is a prefix does not depend on what follows an escape character that `q`
does not contain. -/
theorem isPrefixOf_append_esc (q : Str) (hq : esc ∉ q) (t1 t2 : Str) :
    ∀ pre : Str, q.isPrefixOf (pre ++ esc :: t1) = q.isPrefixOf (pre ++ esc :: t2) := by
  induction q with
  | nil => intro pre; simp [List.isPrefixOf]
  | cons a q ih =>
    intro pre
    have ha : a ≠ esc := fun e => hq (by simp [e])
    have hq2 : esc ∉ q := fun e => hq (by simp [e])
    cases pre with
    | nil =>
      have hb : (a == esc) = false := by simpa using ha
      simp [List.isPrefixOf, hb]
    | cons b pre => simp [List.isPrefixOf, ih hq2 pre]

theorem countOcc_append_esc (q : Str) (hq : esc ∉ q) (t1 t2 : Str) (pre : Str) :
    countOcc (esc :: q) (pre ++ esc :: t1) + countOcc (esc :: q) (esc :: t2)
      = countOcc (esc :: q) (pre ++ esc :: t2) + countOcc (esc :: q) (esc :: t1) := by
  induction pre with
  | nil => simp; omega
  | cons c pre ih =>
    rw [List.cons_append, List.cons_append, countOcc_cons, countOcc_cons _ c,
      isPrefixOf_esc_cons, isPrefixOf_esc_cons, isPrefixOf_append_esc q hq t1 t2 pre]
    omega

theorem countOcc_Highlight_self (t : Str) :
    countOcc Highlight (Highlight ++ t) = countOcc Highlight t + 1 := by
  simp [Highlight_eq, countOcc, isPrefixOf_esc_cons, List.isPrefixOf, esc]
  omega

theorem countOcc_Highlight_insert (pre post : Str) :
    countOcc Highlight (pre ++ Highlight ++ esc :: post)
      = countOcc Highlight (pre ++ esc :: post) + 1 := by
  have h := countOcc_append_esc ['[', '7', 'm'] (by decide) (['[', '7', 'm'] ++ esc :: post) post pre
  have h2 := countOcc_Highlight_self (esc :: post)
  rw [Highlight_eq] at h2 ⊢
  simp only [List.append_assoc, List.cons_append, List.nil_append] at h h2 ⊢
  omega

theorem countOcc_Green_self (t : Str) : countOcc Green (Green ++ t) = countOcc Green t + 1 := by
  simp [Green_eq, countOcc, isPrefixOf_esc_cons, List.isPrefixOf, esc]
  omega

theorem countOcc_Green_Reset (t : Str) : countOcc Green (Reset ++ t) = countOcc Green t := by
  simp [Green_eq, Reset_eq, countOcc, isPrefixOf_esc_cons, List.isPrefixOf, esc]

theorem countOcc_Green_Red (t : Str) : countOcc Green (Red ++ t) = countOcc Green t := by
  simp [Green_eq, Red_eq, countOcc, isPrefixOf_esc_cons, List.isPrefixOf, esc]


/-! ## The document tree -/

theorem Node.Descendants_eq (n : Node) :
    n.Descendants = descendantsOfChildren n n.children := by
  cases n with
  | mk t a d attrs cs => simp [Node.Descendants, Node.children]

theorem descendantsOfChildren_cons (parent c : Node) (cs : List Node) :
    descendantsOfChildren parent (c :: cs)
      = (parent, c) :: (c.Descendants ++ descendantsOfChildren parent cs) := by
  simp [descendantsOfChildren]

theorem descendantsOfChildren_nil (parent : Node) :
    descendantsOfChildren parent [] = [] := by
  simp [descendantsOfChildren]

/-- Induction over a list of sibling nodes and the nodes below them. -/
theorem Node.induct_list {P : Node → Prop} {Q : List Node → Prop}
    (hmk : ∀ t a d attrs cs, Q cs → P (Node.mk t a d attrs cs))
    (hnil : Q []) (hcons : ∀ c cs, P c → Q cs → Q (c :: cs)) : ∀ cs, Q cs :=
  fun cs => @Node.rec_1 P Q hmk hnil hcons cs

/-- The descendants of a descendant are descendants. -/
theorem descendants_trans_list (cs : List Node) :
    ∀ parent : Node, ∀ pn ∈ descendantsOfChildren parent cs,
      ∀ qm ∈ pn.2.Descendants, qm ∈ descendantsOfChildren parent cs := by
  refine @Node.induct_list
    (fun n => ∀ pn ∈ n.Descendants, ∀ qm ∈ pn.2.Descendants, qm ∈ n.Descendants)
    (fun cs => ∀ parent : Node, ∀ pn ∈ descendantsOfChildren parent cs,
      ∀ qm ∈ pn.2.Descendants, qm ∈ descendantsOfChildren parent cs) ?_ ?_ ?_ cs
  · intro t a d attrs cs ih pn hpn qm hqm
    rw [Node.Descendants_eq] at hpn ⊢
    exact ih _ pn hpn qm hqm
  · intro parent pn hpn
    simp [descendantsOfChildren_nil] at hpn
  · intro c cs ihc ihcs parent pn hpn qm hqm
    rw [descendantsOfChildren_cons] at hpn ⊢
    simp only [List.mem_cons, List.mem_append] at hpn ⊢
    rcases hpn with h | h | h
    · subst h; exact Or.inr (Or.inl hqm)
    · exact Or.inr (Or.inl (ihc pn h qm hqm))
    · exact Or.inr (Or.inr (ihcs parent pn h qm hqm))

theorem descendants_trans (doc : Node) (pn : Node × Node) (hpn : pn ∈ doc.Descendants)
    (qm : Node × Node) (hqm : qm ∈ pn.2.Descendants) : qm ∈ doc.Descendants := by
  rw [Node.Descendants_eq] at hpn ⊢
  exact descendants_trans_list _ _ pn hpn qm hqm


/-! ## parseTextFromNode and getText on nodes whose reads succeed -/

theorem parseTextFromNode_some (p n : Node) (h : n.DataAtom = Atom.A → n.FirstChild ≠ none) :
    parseTextFromNode (some p) n = some (nodeText (p, n)) := by
  have key : (parseTextFromNode (some p) n).isSome = true := by
    unfold parseTextFromNode
    by_cases ha : n.DataAtom = Atom.A
    · rw [if_pos ha]
      cases hc : n.FirstChild with
      | none => exact absurd hc (h ha)
      | some c => rfl
    · rw [if_neg ha]
      show (if p.DataAtom = Atom.A then some []
        else if n.type = NodeType.TextNode then some n.Data else some []).isSome = true
      split_ifs <;> rfl
  obtain ⟨s, hs⟩ := Option.isSome_iff_exists.mp key
  simp [nodeText, hs]

/-- On a node that has a parent, the only read that can fail is the first child of an
anchor that has none. -/
theorem parseTextFromNode_eq_none_iff (p n : Node) :
    parseTextFromNode (some p) n = none ↔ (n.DataAtom = Atom.A ∧ n.FirstChild = none) := by
  constructor
  · intro h
    by_cases ha : n.DataAtom = Atom.A
    · refine ⟨ha, ?_⟩
      cases hc : n.FirstChild with
      | none => rfl
      | some c => simp [parseTextFromNode, ha, hc] at h
    · rw [parseTextFromNode_some p n (fun e => absurd e ha)] at h
      simp at h
  · intro h
    simp [parseTextFromNode, h.1, h.2]

theorem foldlM_getTextStep (l : List (Node × Node)) :
    ∀ s : Str, (∀ pn ∈ l, parseTextFromNode (some pn.1) pn.2 = some (nodeText pn)) →
      l.foldlM getTextStep s = some (s ++ (l.map nodeText).flatten) := by
  induction l with
  | nil => intro s _; simp
  | cons pn l ih =>
    intro s h
    have h1 := h pn (by simp)
    have h2 := ih (s ++ nodeText pn) (fun qm hqm => h qm (by simp [hqm]))
    simp [List.foldlM_cons, getTextStep, h1, h2]

theorem getText_some (pn : Node × Node)
    (h0 : parseTextFromNode (some pn.1) pn.2 = some (nodeText pn))
    (h : ∀ qm ∈ pn.2.Descendants, parseTextFromNode (some qm.1) qm.2 = some (nodeText qm)) :
    getText (some pn.1) pn.2
      = some (nodeText pn ++ (pn.2.Descendants.map nodeText).flatten) := by
  simp [getText, h0, foldlM_getTextStep _ _ h]

theorem parseText_ok (doc : Node) (hwf : WellFormed doc) (hch : AnchorsHaveChild doc)
    (pn : Node × Node) (hpn : pn ∈ doc.Descendants) :
    parseTextFromNode (some pn.1) pn.2 = some (nodeText pn) := by
  apply parseTextFromNode_some
  intro ha hnone
  have h := hch pn hpn ⟨hwf pn hpn (by rw [ha]; decide), ha⟩
  rw [hnone] at h
  exact absurd h (by decide)

theorem getText_ok (doc : Node) (hwf : WellFormed doc) (hch : AnchorsHaveChild doc)
    (pn : Node × Node) (hpn : pn ∈ doc.Descendants) :
    getText (some pn.1) pn.2
      = some (nodeText pn ++ (pn.2.Descendants.map nodeText).flatten) :=
  getText_some pn (parseText_ok doc hwf hch pn hpn)
    (fun qm hqm => parseText_ok doc hwf hch qm (descendants_trans doc pn hpn qm hqm))

theorem getTextD_ok (doc : Node) (hwf : WellFormed doc) (hch : AnchorsHaveChild doc)
    (pn : Node × Node) (hpn : pn ∈ doc.Descendants) :
    getText (some pn.1) pn.2 = some (getTextD pn) ∧
      getTextD pn = nodeText pn ++ (pn.2.Descendants.map nodeText).flatten := by
  have h := getText_ok doc hwf hch pn hpn
  simp [getTextD, h]

/-! ## The loop of parseHtml on nodes whose reads succeed -/

theorem foldlM_titleStep (pn : Node × Node) (h : getText (some pn.1) pn.2 = some (getTextD pn))
    (attrs : List Attribute) :
    ∀ t : Str, attrs.foldlM (titleStep pn) t
      = some (if attrs.any isTitleAttr then getTextD pn else t) := by
  induction attrs with
  | nil => intro t; simp
  | cons a attrs ih =>
    intro t
    by_cases ha : isTitleAttr a = true
    · simp [List.foldlM_cons, titleStep, ha, h, ih]
    · simp [List.foldlM_cons, titleStep, ha, ih]

theorem parseHtmlStep_some (pn : Node × Node)
    (h : getText (some pn.1) pn.2 = some (getTextD pn)) (st : Str × Str) :
    parseHtmlStep st pn = some (st.1 ++ stepText pn, stepTitle st.2 pn) := by
  unfold parseHtmlStep
  rw [foldlM_titleStep pn h]
  by_cases ht : pn.2.type = NodeType.ElementNode
  · by_cases h2 : pn.2.DataAtom = Atom.H2
    · have hp : ¬ pn.2.DataAtom = Atom.P := by rw [h2]; decide
      simp [stepText, stepTitle, hasTitleAttr, ht, h2, h]
    · by_cases hp : pn.2.DataAtom = Atom.P
      · simp [stepText, stepTitle, hasTitleAttr, ht, h2, hp, h]
      · simp [stepText, stepTitle, hasTitleAttr, ht, h2, hp]
  · by_cases hp : pn.2.DataAtom = Atom.P
    · simp [stepText, stepTitle, hasTitleAttr, ht, hp, h]
    · simp [stepText, stepTitle, hasTitleAttr, ht, hp]

theorem foldlM_parseHtmlStep (l : List (Node × Node))
    (h : ∀ pn ∈ l, getText (some pn.1) pn.2 = some (getTextD pn)) :
    ∀ st : Str × Str, l.foldlM parseHtmlStep st
      = some (st.1 ++ (l.map stepText).flatten, l.foldl stepTitle st.2) := by
  induction l with
  | nil => intro st; simp
  | cons pn l ih =>
    intro st
    have h1 := parseHtmlStep_some pn (h pn (by simp)) st
    have h2 := ih (fun qm hqm => h qm (by simp [hqm])) (st.1 ++ stepText pn, stepTitle st.2 pn)
    simp [List.foldlM_cons, h1, h2]

theorem parseHtml_ok (doc : Node) (hwf : WellFormed doc) (hch : AnchorsHaveChild doc)
    (t0 : Str) :
    parseHtml doc t0
      = some ((doc.Descendants.map stepText).flatten, doc.Descendants.foldl stepTitle t0) := by
  have := foldlM_parseHtmlStep doc.Descendants
    (fun pn hpn => (getTextD_ok doc hwf hch pn hpn).1) ([], t0)
  simpa [parseHtml] using this


/-! ## What the walker appends and which title it keeps -/

theorem stepText_h2 (pn : Node × Node) (h : pn.2.isElement Atom.H2) :
    stepText pn = Red ++ getTextD pn ++ Reset ++ Newline := by
  have hp : ¬ pn.2.DataAtom = Atom.P := by rw [h.2]; decide
  simp [stepText, h.1, h.2]

theorem stepText_p (pn : Node × Node) (h : pn.2.isElement Atom.P) :
    stepText pn = getTextD pn ++ Newline := by
  simp [stepText, h.1, h.2]

theorem stepText_other (pn : Node × Node)
    (hwf : pn.2.DataAtom ≠ Atom.zero → pn.2.type = NodeType.ElementNode)
    (h : ¬ isBlock pn) : stepText pn = [] := by
  have h2 : ¬ (pn.2.type = NodeType.ElementNode ∧ pn.2.DataAtom = Atom.H2) :=
    fun e => h (Or.inl e)
  have hp : ¬ pn.2.DataAtom = Atom.P :=
    fun e => h (Or.inr ⟨hwf (by rw [e]; decide), e⟩)
  simp [stepText, h2, hp]

theorem flatten_stepText_filter (l : List (Node × Node))
    (hwf : ∀ pn ∈ l, pn.2.DataAtom ≠ Atom.zero → pn.2.type = NodeType.ElementNode) :
    (l.map stepText).flatten
      = ((l.filter (fun pn => decide (isBlock pn))).map stepText).flatten := by
  induction l with
  | nil => rfl
  | cons pn l ih =>
    have ih2 := ih (fun qm hqm => hwf qm (by simp [hqm]))
    by_cases hb : isBlock pn
    · simp [List.filter_cons, hb, ih2]
    · simp [List.filter_cons, hb, ih2, stepText_other pn (hwf pn (by simp)) hb]

theorem forall₂_isSegment (l : List (Node × Node))
    (hg : ∀ pn ∈ l, isBlock pn → getText (some pn.1) pn.2 = some (getTextD pn)) :
    List.Forall₂ IsSegment (l.filter (fun pn => decide (isBlock pn)))
      ((l.filter (fun pn => decide (isBlock pn))).map stepText) := by
  induction l with
  | nil => simp
  | cons pn l ih =>
    have ih2 := ih (fun qm hqm => hg qm (by simp [hqm]))
    by_cases hb : isBlock pn
    · simp only [List.filter_cons, hb, decide_True, if_true, List.map_cons]
      refine List.Forall₂.cons ?_ ih2
      rcases hb with h | h
      · exact Or.inl ⟨h, getTextD pn, hg pn (by simp) (Or.inl h), stepText_h2 pn h⟩
      · exact Or.inr ⟨h, getTextD pn, hg pn (by simp) (Or.inr h), stepText_p pn h⟩
    · simpa [List.filter_cons, hb] using ih2

theorem foldl_stepTitle (l : List (Node × Node)) (t0 : Str) :
    l.foldl stepTitle t0
      = match (l.filter hasTitleAttr).getLast? with
        | none => t0
        | some pn => getTextD pn := by
  induction l using List.reverseRecOn with
  | nil => rfl
  | append_singleton l pn ih =>
    rw [List.foldl_append, List.filter_append]
    by_cases h : hasTitleAttr pn = true
    · simp [List.filter_cons, h, stepTitle]
    · simp [List.filter_cons, h, stepTitle, ih]


/-! ## The loop of parseHtml whenever it returns -/

theorem foldlM_titleStep_eq (pn : Node × Node) (attrs : List Attribute) :
    ∀ t : Str, attrs.foldlM (titleStep pn) t
      = if attrs.any isTitleAttr then getText (some pn.1) pn.2 else some t := by
  induction attrs with
  | nil => intro t; simp
  | cons a attrs ih =>
    intro t
    by_cases ha : isTitleAttr a = true
    · cases hg : getText (some pn.1) pn.2 with
      | none => simp [List.foldlM_cons, titleStep, ha, hg]
      | some x =>
        simp only [List.foldlM_cons, titleStep, ha, if_true, hg, Option.bind_eq_bind,
          Option.some_bind, ih, List.any_cons, Bool.true_or]
        split <;> rfl
    · simp [List.foldlM_cons, titleStep, ha, ih]

/-- An iteration that returns has appended `stepText`, left `stepTitle`, and read the text
of the node successfully if the node is a block or a title node. -/
theorem parseHtmlStep_inv (st st' : Str × Str) (pn : Node × Node)
    (h : parseHtmlStep st pn = some st') :
    st' = (st.1 ++ stepText pn, stepTitle st.2 pn) ∧
      (((pn.2.type = NodeType.ElementNode ∧ pn.2.DataAtom = Atom.H2) ∨
          pn.2.DataAtom = Atom.P ∨ hasTitleAttr pn = true) →
        getText (some pn.1) pn.2 = some (getTextD pn)) := by
  cases hg : getText (some pn.1) pn.2 with
  | some t =>
    have hd : getText (some pn.1) pn.2 = some (getTextD pn) := by simp [getTextD, hg]
    rw [parseHtmlStep_some pn hd st] at h
    exact ⟨(Option.some.inj h).symm, fun _ => by simp [getTextD, hg]⟩
  | none =>
    unfold parseHtmlStep at h
    rw [foldlM_titleStep_eq] at h
    by_cases ht : hasTitleAttr pn = true
    · have ht2 : pn.2.Attr.any isTitleAttr = true := ht
      simp [ht2, hg] at h
    · have ht2 : ¬ pn.2.Attr.any isTitleAttr = true := ht
      by_cases h2 : pn.2.type = NodeType.ElementNode ∧ pn.2.DataAtom = Atom.H2
      · simp [ht2, hg, h2.1, h2.2] at h
      · by_cases hp : pn.2.DataAtom = Atom.P
        · have h2a : ¬ pn.2.DataAtom = Atom.H2 := by rw [hp]; decide
          simp [ht2, hg, hp, h2a] at h
        · have hb1 : (if pn.2.type = NodeType.ElementNode then
                if pn.2.DataAtom = Atom.H2 then
                  (getText (some pn.1) pn.2).map
                    (fun t => st.1 ++ (Red ++ t ++ Reset ++ Newline))
                else some st.1
              else some st.1) = some st.1 := by
            by_cases hty : pn.2.type = NodeType.ElementNode
            · have : ¬ pn.2.DataAtom = Atom.H2 := fun e => h2 ⟨hty, e⟩
              simp [hty, this]
            · simp [hty]
          rw [hb1] at h
          simp [ht2, hp] at h
          refine ⟨?_, fun hc => ?_⟩
          · rw [← h]
            simp [stepText, stepTitle, h2, hp, ht]
          · rcases hc with hc | hc | hc
            · exact absurd hc h2
            · exact absurd hc hp
            · exact absurd hc ht

theorem foldlM_parseHtmlStep_inv (l : List (Node × Node)) :
    ∀ st st' : Str × Str, l.foldlM parseHtmlStep st = some st' →
      st' = (st.1 ++ (l.map stepText).flatten, l.foldl stepTitle st.2) ∧
        ∀ pn ∈ l, ((pn.2.type = NodeType.ElementNode ∧ pn.2.DataAtom = Atom.H2) ∨
            pn.2.DataAtom = Atom.P ∨ hasTitleAttr pn = true) →
          getText (some pn.1) pn.2 = some (getTextD pn) := by
  induction l with
  | nil =>
    intro st st' h
    simp at h
    simp [← h]
  | cons pn l ih =>
    intro st st' h
    rw [List.foldlM_cons] at h
    cases hs : parseHtmlStep st pn with
    | none => rw [hs] at h; simp at h
    | some s1 =>
      rw [hs] at h
      simp only [Option.bind_eq_bind, Option.some_bind] at h
      obtain ⟨e1, g1⟩ := parseHtmlStep_inv st s1 pn hs
      obtain ⟨e2, g2⟩ := ih s1 st' h
      constructor
      · rw [e2, e1]; simp
      · intro qm hqm hc
        rcases List.mem_cons.mp hqm with hq | hq
        · subst hq; exact g1 hc
        · exact g2 qm hq hc

theorem parseHtml_inv (doc : Node) (t0 text title : Str)
    (h : parseHtml doc t0 = some (text, title)) :
    text = (doc.Descendants.map stepText).flatten ∧
      title = doc.Descendants.foldl stepTitle t0 ∧
      ∀ pn ∈ doc.Descendants, ((pn.2.type = NodeType.ElementNode ∧ pn.2.DataAtom = Atom.H2) ∨
          pn.2.DataAtom = Atom.P ∨ hasTitleAttr pn = true) →
        getText (some pn.1) pn.2 = some (getTextD pn) := by
  obtain ⟨e, g⟩ := foldlM_parseHtmlStep_inv doc.Descendants ([], t0) (text, title) h
  simp only [List.nil_append, Prod.mk.injEq] at e
  exact ⟨e.1, e.2, g⟩

/-! ## A paragraph of text nodes and simple anchors -/

theorem parseTextFromNode_text (p c : Node) (hp : p.DataAtom ≠ Atom.A) (hc : IsTextLeaf c) :
    parseTextFromNode (some p) c = some c.Data := by
  have ha : ¬ c.DataAtom = Atom.A := by rw [hc.2.1]; decide
  simp [parseTextFromNode, ha, hp, hc.1]

theorem parseTextFromNode_anchor (parent : Option Node) (c t : Node) (rest : List Node)
    (hc : c.DataAtom = Atom.A) (hch : c.children = t :: rest) :
    parseTextFromNode parent c = some (Green ++ t.Data ++ Reset) := by
  simp [parseTextFromNode, hc, Node.FirstChild, hch]

theorem parseTextFromNode_under_anchor (c t : Node) (hc : c.DataAtom = Atom.A)
    (ht : t.DataAtom ≠ Atom.A) : parseTextFromNode (some c) t = some [] := by
  simp [parseTextFromNode, hc, ht]

theorem descendants_textLeaf (c : Node) (hc : IsTextLeaf c) : c.Descendants = [] := by
  rw [Node.Descendants_eq, List.length_eq_zero.mp hc.2.2, descendantsOfChildren_nil]

theorem paragraph_children (p : Node) (hp : p.DataAtom ≠ Atom.A) (cs : List Node)
    (hkids : ∀ c ∈ cs, IsTextLeaf c ∨ IsSimpleAnchor c) :
    (∀ qm ∈ descendantsOfChildren p cs,
        parseTextFromNode (some qm.1) qm.2 = some (nodeText qm)) ∧
      ((descendantsOfChildren p cs).map nodeText).flatten = (cs.map childText).flatten := by
  induction cs with
  | nil => simp [descendantsOfChildren_nil]
  | cons c cs ih =>
    obtain ⟨ih1, ih2⟩ := ih (fun d hd => hkids d (by simp [hd]))
    rw [descendantsOfChildren_cons]
    rcases hkids c (by simp) with hc | hc
    · have e := parseTextFromNode_text p c hp hc
      have ed := descendants_textLeaf c hc
      have en : nodeText (p, c) = c.Data := by simp [nodeText, e]
      constructor
      · intro qm hqm
        rw [ed] at hqm
        simp only [List.nil_append, List.mem_cons] at hqm
        rcases hqm with h | h
        · subst h; simp [nodeText, e]
        · exact ih1 qm h
      · simp [ed, en, ih2, childText, hc.1]
    · obtain ⟨⟨hty, hat⟩, hlen, hleaf⟩ := hc
      obtain ⟨t, ht⟩ := List.length_eq_one.mp hlen
      have htl : IsTextLeaf t := hleaf t (by simp [ht])
      have hta : t.DataAtom ≠ Atom.A := by rw [htl.2.1]; decide
      have e := parseTextFromNode_anchor (some p) c t [] hat ht
      have e2 := parseTextFromNode_under_anchor c t hat hta
      have ed : c.Descendants = [(c, t)] := by
        rw [Node.Descendants_eq, ht, descendantsOfChildren_cons, descendants_textLeaf t htl,
          descendantsOfChildren_nil]
        rfl
      have en : nodeText (p, c) = Green ++ t.Data ++ Reset := by simp [nodeText, e]
      have en2 : nodeText (c, t) = [] := by simp [nodeText, e2]
      have hnt : ¬ c.type = NodeType.TextNode := by rw [hty]; decide
      constructor
      · intro qm hqm
        rw [ed] at hqm
        simp only [List.mem_cons, List.cons_append, List.nil_append] at hqm
        rcases hqm with h | h | h
        · subst h; simp [nodeText, e]
        · subst h; simp [nodeText, e2]
        · exact ih1 qm h
      · simp [ed, en, en2, ih2, childText, hnt, ht]


/-! ## Link markers of concatenated texts -/

theorem countOcc_Green_escFree (s t : Str) (hs : esc ∉ s) :
    countOcc Green (s ++ t) = countOcc Green t := by
  rw [Green_eq]; exact countOcc_append_escFree _ s t hs

theorem countEsc_escFree (s : Str) (hs : esc ∉ s) : countEsc s = 0 := by
  unfold countEsc
  exact List.count_eq_zero.mpr hs

theorem countEsc_Green : countEsc Green = 1 := by decide
theorem countEsc_Red : countEsc Red = 1 := by decide
theorem countEsc_Reset : countEsc Reset = 1 := by decide
theorem esc_not_mem_Newline : esc ∉ Newline := by decide

theorem links_append {s s' : Str} {ls ls' : List Str} (h : Links s ls) (h' : Links s' ls') :
    Links (s ++ s') (ls ++ ls') := by
  constructor
  · intro t
    rw [List.append_assoc, h.1, h'.1, List.length_append]; omega
  · intro j l hj
    by_cases hlt : j < ls.length
    · rw [List.getElem?_append_left hlt] at hj
      obtain ⟨pre, post, e, c⟩ := h.2 j l hj
      exact ⟨pre, post ++ s', by rw [e]; simp, c⟩
    · rw [List.getElem?_append_right (by omega)] at hj
      obtain ⟨pre, post, e, c⟩ := h'.2 _ l hj
      refine ⟨s ++ pre, post, by rw [e]; simp, ?_⟩
      have := h.1 pre
      omega

theorem links_escFree {s : Str} (hs : esc ∉ s) : Links s [] := by
  constructor
  · intro t; simp [countOcc_Green_escFree s t hs]
  · intro j l hj; simp at hj

theorem links_nil : Links [] [] := links_escFree (by simp)

theorem links_red : Links Red [] := by
  constructor
  · intro t; simp [countOcc_Green_Red]
  · intro j l hj; simp at hj

theorem links_reset : Links Reset [] := by
  constructor
  · intro t; simp [countOcc_Green_Reset]
  · intro j l hj; simp at hj

theorem links_link {d : Str} (hd : esc ∉ d) : Links (Green ++ d ++ Reset) [d] := by
  constructor
  · intro t
    rw [List.append_assoc, List.append_assoc, countOcc_Green_self, countOcc_Green_escFree _ _ hd,
      countOcc_Green_Reset]
    simp; omega
  · intro j l hj
    cases j with
    | zero =>
      simp at hj; subst hj
      exact ⟨[], [], by simp, by simp [countOcc, Green_eq, List.isPrefixOf]⟩
    | succ j => simp at hj

theorem links_flatten {α : Type} (f : α → Str) (g : α → List Str) (l : List α)
    (h : ∀ x ∈ l, Links (f x) (g x)) : Links (l.map f).flatten (l.flatMap g) := by
  induction l with
  | nil => exact links_nil
  | cons x l ih =>
    simp only [List.map_cons, List.flatten_cons, List.flatMap_cons]
    exact links_append (h x (by simp)) (ih (fun y hy => h y (by simp [hy])))

/-! ## The link markers parseHtml writes -/

theorem highlightFrom_at (index : Int) (post : Str) (pre : Str) :
    ∀ cnt : Int, cnt + countEsc pre = index →
      highlightFrom index cnt (pre ++ esc :: post) = pre ++ Highlight ++ esc :: post := by
  induction pre with
  | nil =>
    intro cnt h
    have hc : cnt = index := by simpa [countEsc_nil] using h
    have := highlightFrom_noop index post (cnt + 1) (Or.inl (by omega))
    subst hc
    simp [highlightFrom, this]
  | cons c pre ih =>
    intro cnt h
    by_cases hc : c = esc
    · subst hc
      rw [countEsc_cons_esc] at h
      have hne : cnt ≠ index := by push_cast at h; omega
      have := ih (cnt + 1) (by push_cast at h; omega)
      simp [highlightFrom, hne, this]
    · rw [countEsc_cons_ne hc] at h
      simp [highlightFrom, hc, ih cnt h]

theorem firstChild_mem (doc : Node) (pn : Node × Node) (hpn : pn ∈ doc.Descendants)
    (c : Node) (hc : pn.2.FirstChild = some c) : (pn.2, c) ∈ doc.Descendants := by
  apply descendants_trans doc pn hpn
  rw [Node.Descendants_eq]
  unfold Node.FirstChild at hc
  cases hcs : pn.2.children with
  | nil => rw [hcs] at hc; simp at hc
  | cons d ds =>
    rw [hcs] at hc
    simp at hc
    subst hc
    simp [descendantsOfChildren_cons]

/-- The text of one node: a link marker with its text and `Reset`, or a string free of the
escape character. -/
theorem nodeText_cases (doc : Node) (hwf : WellFormed doc) (hch : AnchorsHaveChild doc)
    (hesc : EscFree doc) (pn : Node × Node) (hpn : pn ∈ doc.Descendants) :
    (pn.2.DataAtom = Atom.A ∧ ∃ c, pn.2.FirstChild = some c ∧
        nodeText pn = Green ++ c.Data ++ Reset ∧ esc ∉ c.Data) ∨
      (pn.2.DataAtom ≠ Atom.A ∧ esc ∉ nodeText pn) := by
  by_cases ha : pn.2.DataAtom = Atom.A
  · left
    have hel : pn.2.isElement Atom.A := ⟨hwf pn hpn (by rw [ha]; decide), ha⟩
    obtain ⟨c, hc⟩ := Option.isSome_iff_exists.mp (hch pn hpn hel)
    refine ⟨ha, c, hc, ?_, ?_⟩
    · simp [nodeText, parseTextFromNode, ha, hc]
    · exact hesc (pn.2, c) (firstChild_mem doc pn hpn c hc) (Or.inr hel)
  · right
    refine ⟨ha, ?_⟩
    by_cases hp : pn.1.DataAtom = Atom.A
    · simp [nodeText, parseTextFromNode, ha, hp]
    · by_cases ht : pn.2.type = NodeType.TextNode
      · have := hesc pn hpn (Or.inl ht)
        simpa [nodeText, parseTextFromNode, ha, hp, ht] using this
      · simp [nodeText, parseTextFromNode, ha, hp, ht]

theorem nodeText_links (doc : Node) (hwf : WellFormed doc) (hch : AnchorsHaveChild doc)
    (hesc : EscFree doc) (pn : Node × Node) (hpn : pn ∈ doc.Descendants) :
    Links (nodeText pn) (nodeLinks pn) := by
  rcases nodeText_cases doc hwf hch hesc pn hpn with ⟨ha, c, hc, e, hd⟩ | ⟨ha, hd⟩
  · have : nodeLinks pn = [c.Data] := by simp [nodeLinks, ha, linkText, hc]
    rw [this, e]
    exact links_link hd
  · have : nodeLinks pn = [] := by simp [nodeLinks, ha]
    rw [this]
    exact links_escFree hd

theorem getTextD_flatten (doc : Node) (hwf : WellFormed doc) (hch : AnchorsHaveChild doc)
    (pn : Node × Node) (hpn : pn ∈ doc.Descendants) :
    getTextD pn = ((pn :: pn.2.Descendants).map nodeText).flatten := by
  rw [(getTextD_ok doc hwf hch pn hpn).2]
  simp

theorem subtree_mem (doc : Node) (pn : Node × Node) (hpn : pn ∈ doc.Descendants)
    (qm : Node × Node) (hqm : qm ∈ pn :: pn.2.Descendants) : qm ∈ doc.Descendants := by
  rcases List.mem_cons.mp hqm with h | h
  · subst h; exact hpn
  · exact descendants_trans doc pn hpn qm h

theorem getTextD_links (doc : Node) (hwf : WellFormed doc) (hch : AnchorsHaveChild doc)
    (hesc : EscFree doc) (pn : Node × Node) (hpn : pn ∈ doc.Descendants) :
    Links (getTextD pn) (subtreeLinks pn) := by
  rw [getTextD_flatten doc hwf hch pn hpn]
  exact links_flatten nodeText nodeLinks _
    (fun qm hqm => nodeText_links doc hwf hch hesc qm (subtree_mem doc pn hpn qm hqm))

theorem stepText_links (doc : Node) (hwf : WellFormed doc) (hch : AnchorsHaveChild doc)
    (hesc : EscFree doc) (pn : Node × Node) (hpn : pn ∈ doc.Descendants) :
    Links (stepText pn) (if isBlock pn then subtreeLinks pn else []) := by
  have hg := getTextD_links doc hwf hch hesc pn hpn
  by_cases hb : isBlock pn
  · rw [if_pos hb]
    rcases hb with h | h
    · rw [stepText_h2 pn h]
      have := links_append (links_append (links_append links_red hg) links_reset)
        (links_escFree esc_not_mem_Newline)
      simpa using this
    · rw [stepText_p pn h]
      have := links_append hg (links_escFree esc_not_mem_Newline)
      simpa using this
  · rw [if_neg hb, stepText_other pn (hwf pn hpn) hb]
    exact links_nil

theorem emitted_links_of_parseHtml (doc : Node) (hwf : WellFormed doc)
    (hch : AnchorsHaveChild doc) (hesc : EscFree doc) :
    Links (doc.Descendants.map stepText).flatten (emittedLinks doc) :=
  links_flatten stepText _ _ (fun pn hpn => stepText_links doc hwf hch hesc pn hpn)

/-! ## The emitted links are the anchors inside blocks -/

theorem Node.anchorsInside_eq (b : Bool) (n : Node) :
    n.anchorsInside b
      = (if b = true ∧ n.isElement Atom.A then [n] else []) ++
        anchorsInsideList (b || decide (n.isElement Atom.H2 ∨ n.isElement Atom.P))
          n.children := by
  cases n with
  | mk t a d attrs cs => simp [Node.anchorsInside, Node.children]

theorem anchorsInsideList_cons (b : Bool) (c : Node) (cs : List Node) :
    anchorsInsideList b (c :: cs) = c.anchorsInside b ++ anchorsInsideList b cs := by
  simp [anchorsInsideList]

theorem anchorsInsideList_nil (b : Bool) : anchorsInsideList b [] = [] := by
  simp [anchorsInsideList]

theorem emittedIn_cons (pn : Node × Node) (l : List (Node × Node)) :
    emittedIn (pn :: l) = (if isBlock pn then subtreeLinks pn else []) ++ emittedIn l := by
  simp [emittedIn]

theorem emittedIn_append (l l' : List (Node × Node)) :
    emittedIn (l ++ l') = emittedIn l ++ emittedIn l' := by
  simp [emittedIn]

theorem emittedIn_noBlock (l : List (Node × Node)) (h : ∀ pn ∈ l, ¬ isBlock pn) :
    emittedIn l = [] := by
  induction l with
  | nil => rfl
  | cons pn l ih =>
    rw [emittedIn_cons, if_neg (h pn (by simp)), ih (fun qm hqm => h qm (by simp [hqm]))]
    rfl

theorem nodeLinks_eq (pn : Node × Node)
    (hwf : pn.2.DataAtom ≠ Atom.zero → pn.2.type = NodeType.ElementNode) :
    nodeLinks pn = if pn.2.isElement Atom.A then [linkText pn.2] else [] := by
  unfold nodeLinks
  by_cases ha : pn.2.DataAtom = Atom.A
  · have : pn.2.isElement Atom.A := ⟨hwf (by rw [ha]; decide), ha⟩
    rw [if_pos ha, if_pos this]
  · have : ¬ pn.2.isElement Atom.A := fun h => ha h.2
    rw [if_neg ha, if_neg this]

theorem nodeLinks_block (pn : Node × Node) (h : isBlock pn) : nodeLinks pn = [] := by
  have : ¬ pn.2.DataAtom = Atom.A := by
    rcases h with h | h <;> rw [h.2] <;> decide
  simp [nodeLinks, this]

theorem anchorsInside_emitted (cs : List Node) :
    ∀ parent : Node,
      (∀ pn ∈ descendantsOfChildren parent cs,
        pn.2.DataAtom ≠ Atom.zero → pn.2.type = NodeType.ElementNode) →
      (anchorsInsideList true cs).map linkText
          = (descendantsOfChildren parent cs).flatMap nodeLinks ∧
        ((∀ pn ∈ descendantsOfChildren parent cs, isBlock pn →
            ∀ qm ∈ pn.2.Descendants, ¬ isBlock qm) →
          (anchorsInsideList false cs).map linkText
            = emittedIn (descendantsOfChildren parent cs)) := by
  refine @Node.induct_list
    (fun n => ∀ parent : Node,
      (∀ pn ∈ descendantsOfChildren parent n.children,
        pn.2.DataAtom ≠ Atom.zero → pn.2.type = NodeType.ElementNode) →
      (anchorsInsideList true n.children).map linkText
          = (descendantsOfChildren parent n.children).flatMap nodeLinks ∧
        ((∀ pn ∈ descendantsOfChildren parent n.children, isBlock pn →
            ∀ qm ∈ pn.2.Descendants, ¬ isBlock qm) →
          (anchorsInsideList false n.children).map linkText
            = emittedIn (descendantsOfChildren parent n.children)))
    (fun cs => ∀ parent : Node,
      (∀ pn ∈ descendantsOfChildren parent cs,
        pn.2.DataAtom ≠ Atom.zero → pn.2.type = NodeType.ElementNode) →
      (anchorsInsideList true cs).map linkText
          = (descendantsOfChildren parent cs).flatMap nodeLinks ∧
        ((∀ pn ∈ descendantsOfChildren parent cs, isBlock pn →
            ∀ qm ∈ pn.2.Descendants, ¬ isBlock qm) →
          (anchorsInsideList false cs).map linkText
            = emittedIn (descendantsOfChildren parent cs)))
    ?_ ?_ ?_ cs
  · intro t a d attrs cs ih
    exact ih
  · intro parent _
    simp [anchorsInsideList_nil, descendantsOfChildren_nil, emittedIn]
  · intro c cs ihc ihcs parent hwf
    rw [descendantsOfChildren_cons] at hwf ⊢
    have hwf_c := hwf (parent, c) (by simp)
    have hwf_dc : ∀ pn ∈ descendantsOfChildren c c.children,
        pn.2.DataAtom ≠ Atom.zero → pn.2.type = NodeType.ElementNode := by
      intro pn hpn
      rw [← Node.Descendants_eq] at hpn
      exact hwf pn (by simp [hpn])
    have hwf_cs : ∀ pn ∈ descendantsOfChildren parent cs,
        pn.2.DataAtom ≠ Atom.zero → pn.2.type = NodeType.ElementNode :=
      fun pn hpn => hwf pn (by simp [hpn])
    obtain ⟨A1, B1⟩ := ihc c hwf_dc
    obtain ⟨A2, B2⟩ := ihcs parent hwf_cs
    rw [← Node.Descendants_eq] at A1 B1
    constructor
    · rw [anchorsInsideList_cons, Node.anchorsInside_eq, List.flatMap_cons, List.flatMap_append,
        nodeLinks_eq (parent, c) hwf_c, ← A1, ← A2]
      by_cases ha : c.isElement Atom.A
      · simp [ha]
      · simp [ha]
    · intro hnest
      have hn_c : ∀ pn ∈ c.Descendants, isBlock pn → ∀ qm ∈ pn.2.Descendants, ¬ isBlock qm :=
        fun pn hpn => hnest pn (by simp [hpn])
      have hn_cs : ∀ pn ∈ descendantsOfChildren parent cs, isBlock pn →
          ∀ qm ∈ pn.2.Descendants, ¬ isBlock qm :=
        fun pn hpn => hnest pn (by simp [hpn])
      rw [anchorsInsideList_cons, Node.anchorsInside_eq, emittedIn_cons, emittedIn_append,
        ← B2 hn_cs]
      by_cases hb : isBlock (parent, c)
      · have hb2 : c.isElement Atom.H2 ∨ c.isElement Atom.P := hb
        have hnone : emittedIn c.Descendants = [] :=
          emittedIn_noBlock _ (hnest (parent, c) (by simp) hb)
        have hsub : subtreeLinks (parent, c) = c.Descendants.flatMap nodeLinks := by
          simp [subtreeLinks, nodeLinks_block (parent, c) hb]
        rw [if_pos hb, hnone, hsub, ← A1]
        simp [hb2]
      · have hb2 : ¬ (c.isElement Atom.H2 ∨ c.isElement Atom.P) := hb
        rw [if_neg hb, ← B1 hn_c]
        simp [hb2]

theorem emittedLinks_eq_anchorsInBlocks (doc : Node) (hwf : WellFormed doc)
    (hnest : NoNestedBlocks doc) :
    emittedLinks doc = (anchorsInBlocks doc).map linkText := by
  have h := anchorsInside_emitted doc.children doc
    (by rw [← Node.Descendants_eq]; exact hwf)
  have h2 := h.2 (by rw [← Node.Descendants_eq]; exact hnest)
  rw [← Node.Descendants_eq] at h2
  exact h2.symm


/-! ## The selection register -/

theorem wrapInt64_id (x : Int) (h0 : -2 ^ 63 ≤ x) (h1 : x < 2 ^ 63) : wrapInt64 x = x := by
  unfold wrapInt64
  omega

theorem Update_content_selected {V : Type} (sh : Shell V) (m : model V) (msg : Msg) :
    (m.Update sh msg).1.content = m.content ∧
      (m.Update sh msg).1.selected
        = if isNext msg = true then wrapInt64 (m.selected + 2) else m.selected := by
  cases msg with
  | KeyMsg k =>
    by_cases hq : k = "ctrl+c" ∨ k = "q" ∨ k = "esc"
    · have hn : ¬ k = "n" := by
        rcases hq with h | h | h <;> rw [h] <;> decide
      simp [model.Update, hq, isNext, hn]
    · by_cases hn : k = "n"
      · simp [model.Update, hq, isNext, hn]
      · simp [model.Update, hq, isNext, hn]
  | WindowSizeMsg w h =>
    by_cases hr : m.ready = false
    · simp [model.Update, isNext, hr]
    · simp [model.Update, isNext, hr]
  | other => simp [model.Update, isNext]

theorem runUpdates_selected {V : Type} (sh : Shell V) (msgs : List Msg) :
    ∀ m : model V, 0 ≤ m.selected → m.selected + 2 * (countNext msgs : Int) < 2 ^ 63 →
      (runUpdates sh m msgs).content = m.content ∧
        (runUpdates sh m msgs).selected = m.selected + 2 * (countNext msgs : Int) := by
  induction msgs with
  | nil => intro m _ _; simp [runUpdates, countNext]
  | cons msg msgs ih =>
    intro m h0 h1
    obtain ⟨hc, hs⟩ := Update_content_selected sh m msg
    have hrun : runUpdates sh m (msg :: msgs) = runUpdates sh (m.Update sh msg).1 msgs := by
      simp [runUpdates]
    rw [hrun]
    by_cases hn : isNext msg = true
    · have hcount : countNext (msg :: msgs) = countNext msgs + 1 := by
        simp [countNext, List.filter_cons, hn]
      rw [hcount] at h1 ⊢
      push_cast at h1 ⊢
      rw [if_pos hn, wrapInt64_id _ (by omega) (by omega)] at hs
      obtain ⟨e1, e2⟩ := ih (m.Update sh msg).1 (by rw [hs]; omega) (by rw [hs]; omega)
      rw [e1, e2, hc, hs]
      exact ⟨rfl, by ring⟩
    · have hcount : countNext (msg :: msgs) = countNext msgs := by
        simp [countNext, List.filter_cons, hn]
      rw [hcount] at h1 ⊢
      rw [if_neg hn] at hs
      obtain ⟨e1, e2⟩ := ih (m.Update sh msg).1 (by rw [hs]; exact h0) (by rw [hs]; exact h1)
      rw [e1, e2, hc, hs]
      exact ⟨rfl, rfl⟩


/-! ## Documents without anchors; anchors listed by the walker -/

theorem links_count {s : Str} {ls : List Str} (h : Links s ls) :
    countOcc Green s = ls.length := by
  have := h.1 []
  simpa [countOcc, Green_eq, List.isPrefixOf] using this

theorem NoAnchor.anchorsHaveChild {doc : Node} (h : NoAnchor doc) : AnchorsHaveChild doc :=
  fun pn hpn ha => absurd ha (h pn hpn)

theorem emittedLinks_noAnchor (doc : Node) (hwf : WellFormed doc) (hna : NoAnchor doc) :
    emittedLinks doc = [] := by
  have hnl : ∀ qm ∈ doc.Descendants, nodeLinks qm = [] := by
    intro qm hqm
    have : ¬ qm.2.DataAtom = Atom.A :=
      fun ha => hna qm hqm ⟨hwf qm hqm (by rw [ha]; decide), ha⟩
    simp [nodeLinks, this]
  unfold emittedLinks
  rw [List.flatMap_eq_nil_iff]
  intro pn hpn
  split
  · unfold subtreeLinks
    rw [List.flatMap_eq_nil_iff]
    exact fun qm hqm => hnl qm (subtree_mem doc pn hpn qm hqm)
  · rfl

/-- A document without anchor element, with text free of the escape character, yields a
text without link marker. -/
theorem no_anchor_no_link_marker (doc : Node) (pageTitle : Str) (hwf : WellFormed doc)
    (hna : NoAnchor doc) (hesc : EscFree doc) :
    ∃ text title, parseHtml doc pageTitle = some (text, title) ∧ countOcc Green text = 0 := by
  have hch := hna.anchorsHaveChild
  have hlinks := emitted_links_of_parseHtml doc hwf hch hesc
  rw [emittedLinks_noAnchor doc hwf hna] at hlinks
  exact ⟨_, _, parseHtml_ok doc hwf hch pageTitle, by simpa using links_count hlinks⟩

/-- The anchors listed for a forest are anchor elements among its nodes. -/
theorem anchorsInsideList_mem (cs : List Node) :
    ∀ (b : Bool) (parent : Node), ∀ a ∈ anchorsInsideList b cs,
      a.isElement Atom.A ∧ ∃ p, (p, a) ∈ descendantsOfChildren parent cs := by
  refine @Node.induct_list
    (fun n => ∀ (b : Bool) (parent : Node), ∀ a ∈ anchorsInsideList b n.children,
      a.isElement Atom.A ∧ ∃ p, (p, a) ∈ descendantsOfChildren parent n.children)
    (fun cs => ∀ (b : Bool) (parent : Node), ∀ a ∈ anchorsInsideList b cs,
      a.isElement Atom.A ∧ ∃ p, (p, a) ∈ descendantsOfChildren parent cs)
    ?_ ?_ ?_ cs
  · intro t a d attrs cs ih
    exact ih
  · intro b parent a ha
    simp [anchorsInsideList_nil] at ha
  · intro c cs ihc ihcs b parent a ha
    rw [anchorsInsideList_cons, Node.anchorsInside_eq] at ha
    rw [descendantsOfChildren_cons]
    simp only [List.mem_append] at ha
    rcases ha with (ha | ha) | ha
    · split at ha
      · rename_i hc
        simp only [List.mem_singleton] at ha
        subst ha
        exact ⟨hc.2, parent, by simp⟩
      · simp at ha
    · obtain ⟨h1, p, hp⟩ := ihc _ c a ha
      rw [← Node.Descendants_eq] at hp
      exact ⟨h1, p, by simp [hp]⟩
    · obtain ⟨h1, p, hp⟩ := ihcs b parent a ha
      exact ⟨h1, p, by simp [hp]⟩

theorem anchorsInBlocks_mem (doc : Node) (a : Node) (ha : a ∈ anchorsInBlocks doc) :
    a.isElement Atom.A ∧ ∃ p, (p, a) ∈ doc.Descendants := by
  rw [Node.Descendants_eq]
  exact anchorsInsideList_mem doc.children false doc a ha


/-! ## Texts whose escape characters are those of links -/

theorem linkText_countOcc_append {s : Str} (h : LinkText s) (u : Str) :
    countOcc Green (s ++ u) = countOcc Green s + countOcc Green u := by
  induction h with
  | nil => simp [countOcc, Green_eq, List.isPrefixOf]
  | plain c t hc _ ih =>
    rw [List.cons_append, Green_eq, countOcc_cons_ne _ hc, countOcc_cons_ne _ hc, ← Green_eq]
    exact ih
  | link d t hd _ ih =>
    have e1 : Green ++ d ++ Reset ++ t ++ u = Green ++ (d ++ (Reset ++ (t ++ u))) := by simp
    have e2 : Green ++ d ++ Reset ++ t = Green ++ (d ++ (Reset ++ t)) := by simp
    rw [e1, e2, countOcc_Green_self, countOcc_Green_self, countOcc_Green_escFree _ _ hd,
      countOcc_Green_escFree _ _ hd, countOcc_Green_Reset, countOcc_Green_Reset, ih]
    omega

theorem linkText_countEsc {s : Str} (h : LinkText s) : countEsc s = 2 * countOcc Green s := by
  induction h with
  | nil => simp [countEsc_nil, countOcc, Green_eq, List.isPrefixOf]
  | plain c t hc _ ih =>
    rw [countEsc_cons_ne hc, Green_eq, countOcc_cons_ne _ hc, ← Green_eq]
    exact ih
  | link d t hd _ ih =>
    have e2 : Green ++ d ++ Reset ++ t = Green ++ (d ++ (Reset ++ t)) := by simp
    rw [e2, countOcc_Green_self, countOcc_Green_escFree _ _ hd, countOcc_Green_Reset]
    simp only [countEsc_append, countEsc_Green, countEsc_Reset, countEsc_escFree d hd, ih]
    omega

/-! ## The walker: segments, title, paragraphs, failing reads -/

/-- C5. For a paragraph element `p` whose parent is not an anchor and whose children are
text nodes and anchor elements with exactly one text-node child each, `getText` returns the
concatenation, in document order, of the literal text of each text child and of
`Green + anchor text + Reset` for each anchor (the anchor's text node adds nothing a second
time), and the iteration of `parseHtml` on `p` appends that string and a line break to the
buffer. -/
theorem getText_paragraph (parent p : Node) (hp : p.isElement Atom.P)
    (hparent : parent.DataAtom ≠ Atom.A)
    (hkids : ∀ c ∈ p.children, IsTextLeaf c ∨ IsSimpleAnchor c) :
    getText (some parent) p = some (p.children.map childText).flatten ∧
      ∀ buffer pageTitle : Str, ∃ title,
        parseHtmlStep (buffer, pageTitle) (parent, p)
          = some (buffer ++ ((p.children.map childText).flatten ++ Newline), title) := by
  have hpa : p.DataAtom ≠ Atom.A := by rw [hp.2]; decide
  have hpt : ¬ p.type = NodeType.TextNode := by rw [hp.1]; decide
  obtain ⟨h1, h2⟩ := paragraph_children p hpa p.children hkids
  rw [← Node.Descendants_eq] at h1 h2
  have h0 : parseTextFromNode (some parent) p = some [] := by
    simp [parseTextFromNode, hpa, hparent, hpt]
  have hn : nodeText (parent, p) = [] := by simp [nodeText, h0]
  have hg : getText (some parent) p = some (p.children.map childText).flatten := by
    have := getText_some (parent, p) (by simp [nodeText, h0]) h1
    simpa [hn, h2] using this
  refine ⟨hg, fun buffer pageTitle => ⟨stepTitle pageTitle (parent, p), ?_⟩⟩
  have hd : getTextD (parent, p) = (p.children.map childText).flatten := by
    simp [getTextD, hg]
  have hs := parseHtmlStep_some (parent, p) (by simp [getTextD, hg]) (buffer, pageTitle)
  rw [hs, stepText_p (parent, p) hp, hd]

/-- C5, at `<p>Hello <a href="x">world</a>!</p>`: the paragraph yields
`"Hello " + Green + "world" + Reset + "!"` and `parseHtml` returns that and a line
break. -/
theorem getText_paragraph_witness :
    getText (some (bodyOf [helloP])) helloP
        = some ("Hello ".toList ++ Green ++ "world".toList ++ Reset ++ "!".toList) ∧
      parseHtml helloDoc []
        = some ("Hello ".toList ++ Green ++ "world".toList ++ Reset ++ "!".toList ++ Newline,
            []) :=
  ⟨(getText_paragraph (bodyOf [helloP]) helloP (by decide) (by decide) (by decide)).1.trans
      (by decide), by decide⟩

/-- C6 as stated fails: in a document with two title nodes, `First` then `Second`, the
title `parseHtml` leaves is that of the second node, not of the first. -/
theorem title_first_match_counterexample :
    titleNodes twoTitlesDoc = [(bodyOf [firstTitle, secondTitle], firstTitle),
        (bodyOf [firstTitle, secondTitle], secondTitle)] ∧
      getText (some (bodyOf [firstTitle, secondTitle])) firstTitle = some "First".toList ∧
      parseHtml twoTitlesDoc [] = some ([], "Second".toList) ∧
      "Second".toList ≠ "First".toList := by
  refine ⟨?_, by decide, by decide, by decide⟩
  rfl

/-- C6, amended. Whenever `parseHtml` returns, the title it leaves is the text (`getText`)
of the last node in document order that carries `class="mw-page-title-main"`: every match
overwrites the title, and without such a node the title keeps the value it had on entry.
`parseHtml` does return on a document all of whose anchor elements have a child. -/
theorem parseHtml_title_last (doc : Node) (pageTitle : Str) (hwf : WellFormed doc) :
    (AnchorsHaveChild doc → ∃ text title, parseHtml doc pageTitle = some (text, title)) ∧
      ∀ text title, parseHtml doc pageTitle = some (text, title) →
        (titleNodes doc = [] → title = pageTitle) ∧
        ∀ pn, (titleNodes doc).getLast? = some pn →
          getText (some pn.1) pn.2 = some title := by
  refine ⟨fun hch => ⟨_, _, parseHtml_ok doc hwf hch pageTitle⟩, ?_⟩
  intro text title h
  obtain ⟨_, e, g⟩ := parseHtml_inv doc pageTitle text title h
  rw [foldl_stepTitle] at e
  constructor
  · intro hnil
    unfold titleNodes at hnil
    simpa [hnil] using e
  · intro pn hpn
    unfold titleNodes at hpn
    have hmem := List.mem_filter.mp (List.mem_of_getLast?_eq_some hpn)
    rw [hpn] at e
    rw [e]
    exact g pn hmem.1 (Or.inr (Or.inr hmem.2))

/-- C6 amended, at the document with the title nodes `First` and `Second`: the title is
`Second`. -/
theorem parseHtml_title_last_witness :
    WellFormed twoTitlesDoc ∧ AnchorsHaveChild twoTitlesDoc ∧
      parseHtml twoTitlesDoc [] = some ([], "Second".toList) ∧
      ((AnchorsHaveChild twoTitlesDoc →
          ∃ text title, parseHtml twoTitlesDoc [] = some (text, title)) ∧
        ∀ text title, parseHtml twoTitlesDoc [] = some (text, title) →
          (titleNodes twoTitlesDoc = [] → title = []) ∧
          ∀ pn, (titleNodes twoTitlesDoc).getLast? = some pn →
            getText (some pn.1) pn.2 = some title) :=
  ⟨by decide, by decide, by decide, parseHtml_title_last twoTitlesDoc [] (by decide)⟩

/-- C7. Whenever `parseHtml` returns, its text is exactly the concatenation, over the nodes
below the document root in pre-order, of one segment `Red + getText(node) + Reset + "\n"`
for each `h2` element and one segment `getText(node) + "\n"` for each `p` element; no
other node contributes.  `parseHtml` does return on a document all of whose anchor elements
have a child. -/
theorem parseHtml_segments (doc : Node) (pageTitle : Str) (hwf : WellFormed doc) :
    (AnchorsHaveChild doc → ∃ text title, parseHtml doc pageTitle = some (text, title)) ∧
      ∀ text title, parseHtml doc pageTitle = some (text, title) →
        ∃ segs, text = segs.flatten ∧
          List.Forall₂ IsSegment
            (doc.Descendants.filter (fun pn => decide (isBlock pn))) segs := by
  refine ⟨fun hch => ⟨_, _, parseHtml_ok doc hwf hch pageTitle⟩, ?_⟩
  intro text title h
  obtain ⟨e, _, g⟩ := parseHtml_inv doc pageTitle text title h
  refine ⟨(doc.Descendants.filter (fun pn => decide (isBlock pn))).map stepText, ?_, ?_⟩
  · rw [e, flatten_stepText_filter doc.Descendants hwf]
  · apply forall₂_isSegment
    intro pn hpn hb
    apply g pn hpn
    rcases hb with hb | hb
    · exact Or.inl hb
    · exact Or.inr (Or.inl hb.2)

/-- C7, at `<h2>One</h2><p>Text</p><h2>Two</h2>`: two heading segments and one paragraph
segment, in document order. -/
theorem parseHtml_segments_witness :
    WellFormed twoHeadingsDoc ∧ AnchorsHaveChild twoHeadingsDoc ∧
      parseHtml twoHeadingsDoc []
        = some ((Red ++ "One".toList ++ Reset ++ Newline) ++ ("Text".toList ++ Newline)
            ++ (Red ++ "Two".toList ++ Reset ++ Newline), []) ∧
      ((AnchorsHaveChild twoHeadingsDoc →
          ∃ text title, parseHtml twoHeadingsDoc [] = some (text, title)) ∧
        ∀ text title, parseHtml twoHeadingsDoc [] = some (text, title) →
          ∃ segs, text = segs.flatten ∧
            List.Forall₂ IsSegment
              (twoHeadingsDoc.Descendants.filter (fun pn => decide (isBlock pn))) segs) :=
  ⟨by decide, by decide, by decide, parseHtml_segments twoHeadingsDoc [] (by decide)⟩

/-- C8 fails on the code: for the anchor `<a id="top"></a>`, which has a parent and no
child, the read `n.FirstChild.Data` of `parseTextFromNode` dereferences nil, and so
`getText` and `parseHtml` on `<p><a id="top"></a></p>` return nothing. -/
theorem parseTextFromNode_childless_anchor :
    WellFormed emptyAnchorDoc ∧
      (bodyOf [emptyAnchorP], emptyAnchorP) ∈ emptyAnchorDoc.Descendants ∧
      (emptyAnchorP, emptyAnchor) ∈ emptyAnchorDoc.Descendants ∧
      emptyAnchor.isElement Atom.A ∧
      parseTextFromNode (some emptyAnchorP) emptyAnchor = none ∧
      getText (some (bodyOf [emptyAnchorP])) emptyAnchorP = none ∧
      parseHtml emptyAnchorDoc [] = none := by
  refine ⟨by decide, ?_, ?_, by decide, by decide, by decide, by decide⟩
  · simp [emptyAnchorDoc, documentOf, bodyOf, element, Node.Descendants, descendantsOfChildren]
  · simp [emptyAnchorDoc, documentOf, bodyOf, element, Node.Descendants, descendantsOfChildren,
      emptyAnchorP]


/-! ## The highlighter -/

/-- C10. `highlightLink(content, index)` is determined by the escape characters U+001B of
`content`: when `index` is negative or `content` has at most `index` of them the result is
`content`; otherwise the result is `content` with `Highlight` inserted once, immediately
before the escape character of ordinal `index` (0-based), whatever sequence that character
begins. -/
theorem highlightLink_by_esc_count (content : Str) (index : Int) :
    ((index < 0 ∨ (countEsc content : Int) ≤ index) → highlightLink content index = content) ∧
      ((0 ≤ index ∧ index < (countEsc content : Int)) →
        ∃ pre post, content = pre ++ esc :: post ∧ (countEsc pre : Int) = index ∧
          highlightLink content index = pre ++ Highlight ++ esc :: post) := by
  rw [highlightLink_eq_highlightFrom]
  constructor
  · intro h
    apply highlightFrom_noop
    rcases h with h | h
    · exact Or.inl h
    · exact Or.inr (by omega)
  · intro h
    obtain ⟨pre, post, e1, e2, e3⟩ := highlightFrom_insert index content 0 h.1 (by omega)
    exact ⟨pre, post, e1, by omega, e3⟩

/-- C10, on the text of `<h2>Title</h2><p><a href="x">w</a></p>`: index 0 marks the `Red`
of the heading, index 1 its `Reset`, index 2 the `Green` of the link, and the indices -1
and 4 leave the text as it is. -/
theorem highlightLink_by_esc_count_witness :
    countEsc headingLinkText = 4 ∧
      highlightLink headingLinkText 0 = Highlight ++ headingLinkText ∧
      highlightLink headingLinkText 1
        = Red ++ "Title".toList ++ Highlight ++ Reset ++ Newline
          ++ (Green ++ "w".toList ++ Reset ++ Newline) ∧
      highlightLink headingLinkText 2
        = Red ++ "Title".toList ++ Reset ++ Newline
          ++ (Highlight ++ Green ++ "w".toList ++ Reset ++ Newline) ∧
      highlightLink headingLinkText (-1) = headingLinkText ∧
      highlightLink headingLinkText 4 = headingLinkText :=
  ⟨by decide, by decide, by decide, by decide,
    (highlightLink_by_esc_count headingLinkText (-1)).1 (Or.inl (by decide)),
    (highlightLink_by_esc_count headingLinkText 4).1 (Or.inr (by decide))⟩

/-- C1 as stated fails: the text of `<p><a>a</a><a>b</a></p>` has two link markers, so
index 1 is in range, yet `highlightLink` puts `Highlight` before the `Reset` that ends
link 0, neither before the marker of link 1 nor before its visible text. -/
theorem highlight_ith_link_counterexample :
    parseHtml twoLinksDoc [] = some (twoLinksText, []) ∧
      countOcc Green twoLinksText = 2 ∧
      highlightLink twoLinksText 1
        = Green ++ "a".toList ++ Highlight ++ Reset ++ Green ++ "b".toList ++ Reset ++ Newline ∧
      highlightLink twoLinksText 1
        ≠ Green ++ "a".toList ++ Reset ++ Highlight ++ Green ++ "b".toList ++ Reset ++ Newline ∧
      highlightLink twoLinksText 1
        ≠ Green ++ "a".toList ++ Reset ++ Green ++ Highlight ++ "b".toList ++ Reset ++ Newline := by
  decide

/-- C1, amended. Let `text = pre + Green + d + Reset + post`, where every escape character
of `pre` belongs to a complete link (a `Green` marker, visible text free of U+001B, its
`Reset`) and `d` is free of U+001B, and let `j` be the number of link markers in `pre`, so
that the `Green` shown is the link marker of ordinal `j` of `text`.  Then
`highlightLink(text, 2 * j)` has exactly one more occurrence of `Highlight` than `text`,
standing immediately before that link marker, and `highlightLink(text, 2 * j + 1)` has
exactly one more, standing immediately before the `Reset` that ends the link; deleting the
occurrence gives `text` back.  The scan index of link `j` is `2 * j` because the `Reset` of
every link is counted as well. -/
theorem highlightLink_at_link (pre d post : Str) (hpre : LinkText pre) (hd : esc ∉ d) :
    countOcc Green (pre ++ Green ++ d ++ Reset ++ post)
        = countOcc Green pre + 1 + countOcc Green post ∧
      highlightLink (pre ++ Green ++ d ++ Reset ++ post) (2 * (countOcc Green pre : Int))
        = pre ++ Highlight ++ Green ++ d ++ Reset ++ post ∧
      highlightLink (pre ++ Green ++ d ++ Reset ++ post) (2 * (countOcc Green pre : Int) + 1)
        = pre ++ Green ++ d ++ Highlight ++ Reset ++ post ∧
      countOcc Highlight (pre ++ Highlight ++ Green ++ d ++ Reset ++ post)
        = countOcc Highlight (pre ++ Green ++ d ++ Reset ++ post) + 1 ∧
      countOcc Highlight (pre ++ Green ++ d ++ Highlight ++ Reset ++ post)
        = countOcc Highlight (pre ++ Green ++ d ++ Reset ++ post) + 1 := by
  have hesc := linkText_countEsc hpre
  refine ⟨?_, ?_, ?_, ?_, ?_⟩
  · have e : pre ++ Green ++ d ++ Reset ++ post = pre ++ (Green ++ (d ++ (Reset ++ post))) := by
      simp
    rw [e, linkText_countOcc_append hpre, countOcc_Green_self, countOcc_Green_escFree _ _ hd,
      countOcc_Green_Reset]
    omega
  · rw [highlightLink_eq_highlightFrom]
    have := highlightFrom_at (2 * (countOcc Green pre : Int))
      (['[', '3', '2', 'm'] ++ d ++ Reset ++ post) pre 0 (by rw [hesc]; push_cast; omega)
    simpa [Green_eq] using this
  · rw [highlightLink_eq_highlightFrom]
    have hc : countEsc (pre ++ Green ++ d) = 2 * countOcc Green pre + 1 := by
      simp only [countEsc_append, countEsc_Green, countEsc_escFree d hd, hesc]
    have := highlightFrom_at (2 * (countOcc Green pre : Int) + 1)
      (['[', '0', 'm'] ++ post) (pre ++ Green ++ d) 0 (by rw [hc]; push_cast; omega)
    simpa [Reset_eq] using this
  · have := countOcc_Highlight_insert pre (['[', '3', '2', 'm'] ++ d ++ Reset ++ post)
    simpa [Green_eq] using this
  · have := countOcc_Highlight_insert (pre ++ Green ++ d) (['[', '0', 'm'] ++ post)
    simpa [Reset_eq] using this

/-- C1 amended, at the second link of the text of `<p><a>a</a><a>b</a></p>`: one link
comes before it, index 2 marks its `Green` and index 3 its `Reset`. -/
theorem highlightLink_at_link_witness :
    LinkText (Green ++ "a".toList ++ Reset) ∧ esc ∉ "b".toList ∧
      twoLinksText = Green ++ "a".toList ++ Reset ++ Green ++ "b".toList ++ Reset ++ Newline ∧
      countOcc Green (Green ++ "a".toList ++ Reset) = 1 ∧
      (countOcc Green (Green ++ "a".toList ++ Reset ++ Green ++ "b".toList ++ Reset ++ Newline)
          = countOcc Green (Green ++ "a".toList ++ Reset) + 1 + countOcc Green Newline ∧
        highlightLink (Green ++ "a".toList ++ Reset ++ Green ++ "b".toList ++ Reset ++ Newline)
            (2 * (countOcc Green (Green ++ "a".toList ++ Reset) : Int))
          = Green ++ "a".toList ++ Reset ++ Highlight ++ Green ++ "b".toList ++ Reset
              ++ Newline ∧
        highlightLink (Green ++ "a".toList ++ Reset ++ Green ++ "b".toList ++ Reset ++ Newline)
            (2 * (countOcc Green (Green ++ "a".toList ++ Reset) : Int) + 1)
          = Green ++ "a".toList ++ Reset ++ Green ++ "b".toList ++ Highlight ++ Reset
              ++ Newline ∧
        countOcc Highlight
            (Green ++ "a".toList ++ Reset ++ Highlight ++ Green ++ "b".toList ++ Reset
              ++ Newline)
          = countOcc Highlight
              (Green ++ "a".toList ++ Reset ++ Green ++ "b".toList ++ Reset ++ Newline) + 1 ∧
        countOcc Highlight
            (Green ++ "a".toList ++ Reset ++ Green ++ "b".toList ++ Highlight ++ Reset
              ++ Newline)
          = countOcc Highlight
              (Green ++ "a".toList ++ Reset ++ Green ++ "b".toList ++ Reset ++ Newline) + 1) :=
  ⟨by simpa using LinkText.link "a".toList [] (by decide) LinkText.nil, by decide, by decide,
    by decide,
    highlightLink_at_link (Green ++ "a".toList ++ Reset) "b".toList Newline
      (by simpa using LinkText.link "a".toList [] (by decide) LinkText.nil) (by decide)⟩

/-- C2 as stated fails: the text of `<p><a>a</a></p>` has one link marker, index 1 is not
below that number, yet `highlightLink` changes the text: it puts `Highlight` before the
`Reset` of the link. -/
theorem highlight_out_of_range_counterexample :
    parseHtml oneLinkDoc [] = some (oneLinkText, []) ∧
      countOcc Green oneLinkText = 1 ∧
      highlightLink oneLinkText 1 = Green ++ "a".toList ++ Highlight ++ Reset ++ Newline ∧
      highlightLink oneLinkText 1 ≠ oneLinkText := by
  decide

/-- C2, amended. For an index `i` that is at least the number of escape characters of
`text`, `highlightLink(text, i)` returns `text` unchanged. -/
theorem highlightLink_out_of_range (text : Str) (i : Int) (h : (countEsc text : Int) ≤ i) :
    highlightLink text i = text := by
  rw [highlightLink_eq_highlightFrom]
  exact highlightFrom_noop i text 0 (Or.inr (by omega))

/-- C2 amended, at index 2 of the text of `<p><a>a</a></p>`, which has two escape
characters. -/
theorem highlightLink_out_of_range_witness :
    (countEsc oneLinkText : Int) ≤ 2 ∧ highlightLink oneLinkText 2 = oneLinkText :=
  ⟨by decide, highlightLink_out_of_range oneLinkText 2 (by decide)⟩


/-! ## Links of a document and the selection register -/

/-- C3 fails on the code: `<h2>Title</h2>` has no anchor and its text has no link marker,
yet `highlightLink(text, 0)` is not `text`: it puts `Highlight` before the `Red` of the
heading, whose escape character the scan takes for a link marker.  Index 0 is the value of
`selected` that `Update` passes on the first window size. -/
theorem no_anchor_heading_highlighted :
    WellFormed headingDoc ∧ NoAnchor headingDoc ∧ EscFree headingDoc ∧
      parseHtml headingDoc [] = some (headingText, []) ∧
      countOcc Green headingText = 0 ∧
      highlightLink headingText 0 = Highlight ++ headingText ∧
      highlightLink headingText 0 ≠ headingText ∧
      ((initialModel headingText [] ([] : Str)).Update plainShell
          (Msg.WindowSizeMsg 80 24)).1.viewport = Highlight ++ headingText := by
  decide

/-- C4 as stated fails: `<h2><p><a href="x">w</a></p></h2>` has exactly one anchor inside a
paragraph or heading, and the text of `parseHtml` has two link markers: the anchor is
written once for the heading and once for the paragraph. -/
theorem anchors_in_blocks_counterexample :
    WellFormed nestedDoc ∧ AnchorsHaveChild nestedDoc ∧ EscFree nestedDoc ∧
      (anchorsInBlocks nestedDoc).length = 1 ∧
      parseHtml nestedDoc [] = some (nestedText, []) ∧
      countOcc Green nestedText = 2 := by
  decide

/-- C4, amended. For a document in which every anchor element has a child, no `p` or `h2`
element lies inside another one, and the text nodes and the children of anchors are free of
the escape character: with `K` anchor elements inside `p` or `h2` elements, `parseHtml`
returns a text with exactly `K` link markers, and the marker of ordinal `j` is followed by
the `Data` of the first child of the `j`-th such anchor in document order, then `Reset`. -/
theorem parseHtml_links (doc : Node) (pageTitle : Str) (hwf : WellFormed doc)
    (hch : AnchorsHaveChild doc) (hesc : EscFree doc) (hnest : NoNestedBlocks doc) :
    ∃ text title, parseHtml doc pageTitle = some (text, title) ∧
      countOcc Green text = (anchorsInBlocks doc).length ∧
      ∀ j a, (anchorsInBlocks doc)[j]? = some a →
        ∃ c pre post, a.FirstChild = some c ∧
          text = pre ++ Green ++ c.Data ++ Reset ++ post ∧ countOcc Green pre = j := by
  have hlinks := emitted_links_of_parseHtml doc hwf hch hesc
  rw [emittedLinks_eq_anchorsInBlocks doc hwf hnest] at hlinks
  refine ⟨_, _, parseHtml_ok doc hwf hch pageTitle, by simpa using links_count hlinks, ?_⟩
  intro j a hja
  obtain ⟨hel, p, hp⟩ := anchorsInBlocks_mem doc a (List.getElem?_mem hja)
  obtain ⟨c, hc⟩ := Option.isSome_iff_exists.mp (hch (p, a) hp hel)
  have hj : ((anchorsInBlocks doc).map linkText)[j]? = some c.Data := by
    simp [List.getElem?_map, hja, linkText, hc]
  obtain ⟨pre, post, e, hcnt⟩ := hlinks.2 j c.Data hj
  exact ⟨c, pre, post, hc, e, hcnt⟩

/-- C4 amended, at `<p><a href="x">a</a><a href="y">b</a></p>`. -/
theorem parseHtml_links_witness :
    WellFormed twoLinksDoc ∧ AnchorsHaveChild twoLinksDoc ∧ EscFree twoLinksDoc ∧
      NoNestedBlocks twoLinksDoc ∧ (anchorsInBlocks twoLinksDoc).length = 2 ∧
      ∃ text title, parseHtml twoLinksDoc [] = some (text, title) ∧
        countOcc Green text = (anchorsInBlocks twoLinksDoc).length ∧
        ∀ j a, (anchorsInBlocks twoLinksDoc)[j]? = some a →
          ∃ c pre post, a.FirstChild = some c ∧
            text = pre ++ Green ++ c.Data ++ Reset ++ post ∧ countOcc Green pre = j :=
  ⟨by decide, by decide, by decide, by decide, by decide,
    parseHtml_links twoLinksDoc [] (by decide) (by decide) (by decide) (by decide)⟩

/-- C9 fails on the code: the text of `<h2>Title</h2><p><a href="x">w</a></p>` has one
link, so more than `k = 0`, and `selected` is 0 before any `n` key; yet
`highlightLink(text, 2 * 0)` puts `Highlight` before the `Red` of the heading, neither
before the marker of link 0 nor before its visible text, and that is what `Update` shows on
the first window size. -/
theorem step_two_marks_heading :
    WellFormed headingLinkDoc ∧ AnchorsHaveChild headingLinkDoc ∧ EscFree headingLinkDoc ∧
      parseHtml headingLinkDoc [] = some (headingLinkText, []) ∧
      0 < countOcc Green headingLinkText ∧
      (initialModel headingLinkText [] ([] : Str)).selected = 0 ∧
      highlightLink headingLinkText (2 * 0) = Highlight ++ headingLinkText ∧
      highlightLink headingLinkText (2 * 0)
        ≠ Red ++ "Title".toList ++ Reset ++ Newline
            ++ (Highlight ++ Green ++ "w".toList ++ Reset ++ Newline) ∧
      highlightLink headingLinkText (2 * 0)
        ≠ Red ++ "Title".toList ++ Reset ++ Newline
            ++ (Green ++ Highlight ++ "w".toList ++ Reset ++ Newline) ∧
      ((initialModel headingLinkText [] ([] : Str)).Update plainShell
          (Msg.WindowSizeMsg 80 24)).1.viewport = Highlight ++ headingLinkText := by
  decide

end WikiTui
